import Mathlib

/-!
Verification of the Recapkit deterministic recap pipeline.

Text is modelled as `Str := List Char` (a JavaScript string, ordered sequence
of characters).  Every definition below is a direct translation of a function
of the repository:

* `Recap.*`    — `src/web/lib/recap.ts` (the implementation imported by the
                 API routes, i.e. the live pipeline);
* `Legacy.*`   — `src/unnamed/part_001` (an earlier revision of
                 `web/lib/recap.ts` containing `toBullets` and the
                 fallback-equipped `parseActionItems`);
* `Api.*`      — `src/web/app/api/generate/route.ts` (the boundary
                 validation of the artifact-generation endpoint).

JavaScript regular expressions are translated into explicit scanning
functions with the same leftmost-match / greedy-with-backtracking semantics,
specialised to the concrete patterns of the source.
-/

/-- A JavaScript string, modelled as a list of characters. -/
abbrev Str := List Char

/-- The JavaScript whitespace class (`\s`, and the set trimmed by
`String.prototype.trim`): tab, LF, VT, FF, CR, space, NBSP, and the
Unicode space separators. -/
def isWsChar (c : Char) : Bool :=
  c == ' ' || c == '\t' || c == '\n' || c == '\r' ||
  c.toNat == 11 || c.toNat == 12 || c.toNat == 160 ||
  c.toNat == 0x1680 || (0x2000 ≤ c.toNat && c.toNat ≤ 0x200A) ||
  c.toNat == 0x2028 || c.toNat == 0x2029 || c.toNat == 0x202F ||
  c.toNat == 0x205F || c.toNat == 0x3000 || c.toNat == 0xFEFF

/-- The JavaScript word-character class `\w` = `[A-Za-z0-9_]`,
used by the `\b` word-boundary assertion. -/
def wordCharB (c : Char) : Bool :=
  ('a' ≤ c && c ≤ 'z') || ('A' ≤ c && c ≤ 'Z') || ('0' ≤ c && c ≤ '9') || c == '_'

def isDigitB (c : Char) : Bool := '0' ≤ c && c ≤ '9'

def isAsciiLetterB (c : Char) : Bool := ('a' ≤ c && c ≤ 'z') || ('A' ≤ c && c ≤ 'Z')

def isUpperB (c : Char) : Bool := 'A' ≤ c && c ≤ 'Z'

def isLowerAlphaB (c : Char) : Bool := 'a' ≤ c && c ≤ 'z'

/-- `String.prototype.toLowerCase`, character by character. -/
def lowerStr (s : Str) : Str := s.map Char.toLower

/-- Drop leading JavaScript whitespace. -/
def trimL (s : Str) : Str := s.dropWhile isWsChar

/-- Drop trailing JavaScript whitespace. -/
def trimR (s : Str) : Str := (s.reverse.dropWhile isWsChar).reverse

/-- `String.prototype.trim`. -/
def trimStr (s : Str) : Str := trimR (trimL s)

/-- `split` on a single separator character (as `"x".split("\n")`):
always returns a nonempty list of parts, separators removed. -/
def splitCh (sep : Char) : Str → List Str
  | [] => [[]]
  | c :: t =>
    if c = sep then [] :: splitCh sep t
    else
      match splitCh sep t with
      | [] => [[c]]
      | h :: r => (c :: h) :: r

/-- `raw.split("\n")`. -/
def splitNl (s : Str) : List Str := splitCh '\n' s

/-- `Array.prototype.join("\n")`. -/
def joinNl : List Str → Str
  | [] => []
  | [b] => b
  | b :: c :: r => b ++ '\n' :: joinNl (c :: r)

/-- space-or-tab, the class `[ \t]` collapsed by the legacy line normalizer. -/
def spTab (c : Char) : Bool := c == ' ' || c == '\t'

/-- `s.replace(/[ \t]+/g, " ")`: collapse every run of spaces/tabs to one
space (the flag records that the scan is inside a run whose single space has
already been emitted). -/
def collapseAux : Bool → Str → Str
  | _, [] => []
  | inRun, c :: t =>
    if spTab c then
      if inRun then collapseAux true t else ' ' :: collapseAux true t
    else c :: collapseAux false t

def collapseSpTab (s : Str) : Str := collapseAux false s

/-- `s.replace(/ /g, " ")`. -/
def nbspFix (s : Str) : Str := s.map fun c => if c.toNat == 160 then ' ' else c

/-- `src/unnamed/part_001` `normalizeLine`:
`s.replace(/ /g, " ").replace(/[ \t]+/g, " ").trim()`. -/
def normalizeLine (s : Str) : Str := trimStr (collapseSpTab (nbspFix s))

/-- `text.replace(/\r\n/g, "\n")`. -/
def crlfFix : Str → Str
  | [] => []
  | '\r' :: '\n' :: t => '\n' :: crlfFix t
  | c :: t => c :: crlfFix t

/-- Is `w` the prefix of `s.drop i` (a match of the literal `w` at offset `i`)? -/
def substrAtB (w s : Str) (i : Nat) : Bool := List.isPrefixOf w (s.drop i)

/-- `String.prototype.includes`: `w` occurs somewhere in `s`. -/
def hasInfixB (w s : Str) : Bool :=
  (List.range (s.length + 1)).any fun i => substrAtB w s i

/-- Index of the leftmost occurrence of `w` in `s`, if any. -/
def idxOfInfix (w s : Str) : Option Nat :=
  (List.range (s.length + 1)).find? fun i => substrAtB w s i

/-- `\b` holds just before offset `i` of `s` for a pattern starting with a
word character: `i` is the start of the string or the previous character is
not a word character. -/
def prevNonWord (s : Str) (i : Nat) : Bool :=
  i == 0 || !wordCharB (s.getD (i - 1) ' ')

/-- `\b` holds at offset `i` of `s` for a pattern ending with a word
character: `i` is the end of the string or the character at `i` is not a
word character. -/
def nextNonWord (s : Str) (i : Nat) : Bool :=
  match s.drop i with
  | [] => true
  | c :: _ => !wordCharB c

/-- `src/web/lib/recap.ts` `includesWord`: the test
`new RegExp("\\b" + word + "\\b", "i").test(haystack)` for an
already-lower-cased haystack and word (all words start and end with a word
character, so `\b` is the transition tested by
`prevNonWord` / `nextNonWord`). -/
def includesWord (haystackLower wordLower : Str) : Bool :=
  (List.range (haystackLower.length + 1)).any fun i =>
    substrAtB wordLower haystackLower i &&
    prevNonWord haystackLower i &&
    nextNonWord haystackLower (i + wordLower.length)

/-! ### `src/unnamed/part_001` — the legacy segmenter `toBullets` -/

namespace Legacy

/-- The lookbehind class `[.!?]` of the sentence-boundary regex. -/
def sentencePunct (c : Char) : Bool := c == '.' || c == '!' || c == '?'

/-- The lookahead class `[A-Z0-9(]` of the sentence-boundary regex. -/
def sentenceStartB (c : Char) : Bool := isUpperB c || isDigitB c || c == '('

def prevPunct : Option Char → Bool
  | some p => sentencePunct p
  | none => false

def nextCap : Str → Bool
  | [] => false
  | d :: _ => sentenceStartB d

/-- Scanner for `text.split(/(?<=[.!?])\s+(?=[A-Z0-9(])/)`: a separator is a
maximal whitespace run preceded by `.`, `!` or `?` and followed by an
upper-case letter, digit or `(`; `prev` is the character before the scan
position. -/
def sentenceSplitAux (acc : Str) (prev : Option Char) : Str → List Str
  | [] => [acc.reverse]
  | c :: t =>
    if _h : isWsChar c = true ∧ prevPunct prev = true ∧ nextCap (t.dropWhile isWsChar) = true
    then acc.reverse :: sentenceSplitAux [] (some ' ') (t.dropWhile isWsChar)
    else sentenceSplitAux (c :: acc) (some c) t
termination_by s => s.length
decreasing_by
  · exact Nat.lt_succ_of_le (List.dropWhile_sublist isWsChar (l := t)).length_le
  · simp

def sentenceSplit (s : Str) : List Str := sentenceSplitAux [] none s

/-- `src/unnamed/part_001` `splitIntoSentences`. -/
def splitIntoSentences (paragraph : Str) : List Str :=
  let text := trimStr paragraph
  if text = [] then []
  else ((sentenceSplit text).map normalizeLine).filter (· ≠ [])

/-- The inline-bullet glyph class `[•·]`. -/
def isGlyph (c : Char) : Bool := c == '•' || c == '·'

/-- `line.split(/[•·]/g)`: split on every glyph occurrence. -/
def splitByPred (p : Char → Bool) : Str → List Str
  | [] => [[]]
  | c :: t =>
    if p c then [] :: splitByPred p t
    else
      match splitByPred p t with
      | [] => [[c]]
      | h :: r => (c :: h) :: r

/-- `p.split(/\s-\s/g)` (and, with `mid := '|'`, `p.split(/\s\|\s/g)`):
split on every non-overlapping leftmost occurrence of
whitespace–`mid`–whitespace. -/
def splitTriple (mid : Char) : Str → List Str
  | [] => [[]]
  | [c] => [[c]]
  | [c, d] => [[c, d]]
  | a :: b :: c :: t =>
    if isWsChar a ∧ b = mid ∧ isWsChar c then [] :: splitTriple mid t
    else
      match splitTriple mid (b :: c :: t) with
      | [] => [[a]]
      | h :: r => (a :: h) :: r

/-- One line of the structured heuristic of `toBullets`: split on glyphs,
then on " - ", then on " | ", normalize, drop blanks; if nothing survives,
keep the whole line. -/
def splitLine (line : Str) : List Str :=
  let parts :=
    (((((splitByPred isGlyph line).flatMap (splitTriple '-')).flatMap
        (splitTriple '|')).map normalizeLine).filter (· ≠ []))
  if parts = [] then [line] else parts

/-- The leading-marker strip of `toBullets`:
`s.replace(/^(\*|-|•|\d+\)|\d+\.|\[ \]|\[x\])\s+/, "")`. -/
def stripMarker (s : Str) : Str :=
  match s with
  | [] => []
  | c :: t =>
    if c = '*' ∨ c = '-' ∨ c = '•' then
      match t with
      | d :: r => if isWsChar d then (d :: r).dropWhile isWsChar else s
      | [] => s
    else if c = '[' then
      match t with
      | x :: ']' :: w :: r =>
        if (x = ' ' ∨ x = 'x') ∧ isWsChar w then (w :: r).dropWhile isWsChar else s
      | _ => s
    else if isDigitB c then
      match t.dropWhile isDigitB with
      | p :: w :: r => if (p = ')' ∨ p = '.') ∧ isWsChar w then (w :: r).dropWhile isWsChar else s
      | _ => s
    else s

/-- The case-insensitive dedup loop of `toBullets` (`seen` holds the
lower-cased keys already emitted). -/
def dedupAux (seen : List Str) : List Str → List Str
  | [] => []
  | s :: t =>
    if lowerStr s ∈ seen then dedupAux seen t
    else s :: dedupAux (lowerStr s :: seen) t

def dedupStr (l : List Str) : List Str := dedupAux [] l

/-- `raw.split("\n").map(normalizeLine).filter(Boolean)`. -/
def toBulletLines (raw : Str) : List Str :=
  ((splitNl raw).map normalizeLine).filter (· ≠ [])

/-- The candidate selection of `toBullets`: single long unstructured blocks
are sentence-split, everything else goes line by line. -/
def candidates (raw : Str) : List Str :=
  let lines := toBulletLines raw
  if lines.length ≤ 1 ∧ 80 < raw.length then splitIntoSentences raw
  else lines.flatMap splitLine

/-- `candidates.map(strip marker).map(normalizeLine).filter(Boolean)`. -/
def cleaned (raw : Str) : List Str :=
  (((candidates raw).map stripMarker).map normalizeLine).filter (· ≠ [])

/-- `src/unnamed/part_001` `toBullets`. -/
def toBullets (text : Str) : List Str :=
  let raw := trimStr (crlfFix text)
  if raw = [] then [] else dedupStr (cleaned raw)

end Legacy

/-! ### `src/web/lib/recap.ts` — the live pipeline -/

namespace Recap

/-- `ActionItem` of `src/web/lib/recap.ts`. -/
structure ActionItem where
  text : Str
  owner : Option Str
  due : Option Str
  notes : Option Str
deriving DecidableEq

def dashSp : Str := ("- ").toList

/-- The literal dash separator of `original.split(" - ")`. -/
def dashSep : Str := (" - ").toList

def phraseVerbs : List Str := [("follow up").toList, ("touch base").toList]

def singleWordVerbs : List Str :=
  [("send").toList, ("share").toList, ("schedule").toList, ("book").toList,
   ("confirm").toList, ("review").toList, ("update").toList, ("fix").toList,
   ("create").toList, ("ship").toList, ("deliver").toList, ("email").toList,
   ("call").toList, ("contact").toList]

/-- The action-candidate filter of `parseActionItems`: a phrase verb as a
substring, or a single-word verb as a whole word. -/
def qualifies (b : Str) : Bool :=
  let lower := lowerStr b
  phraseVerbs.any (fun v => hasInfixB v lower) ||
  singleWordVerbs.any (fun v => includesWord lower v)

/-- One match attempt of `/\b\d{4}-\d{2}-\d{2}\b/` at offset `i`. -/
def isoMatchAt (s : Str) (i : Nat) : Bool :=
  (match (s.drop i).take 10 with
   | [a, b, c, d, h1, e, f, h2, g, k] =>
     isDigitB a && isDigitB b && isDigitB c && isDigitB d && h1 == '-' &&
     isDigitB e && isDigitB f && h2 == '-' && isDigitB g && isDigitB k
   | _ => false) &&
  prevNonWord s i && nextNonWord s (i + 10)

/-- Leftmost match of the ISO-date regex, returning the matched slice. -/
def isoFind (s : Str) : Option Str :=
  ((List.range (s.length + 1)).find? fun i => isoMatchAt s i).map
    fun i => (s.drop i).take 10

def dueTokens : List Str :=
  [("today").toList, ("tomorrow").toList, ("this week").toList,
   ("next week").toList, ("end of day").toList, ("eod").toList, ("eow").toList]

def weekdayAlts : List Str :=
  [("mon").toList, ("tue").toList, ("wed").toList, ("thu").toList,
   ("fri").toList, ("sat").toList, ("sun").toList]

def dayStr : Str := ("day").toList

/-- Match attempt of `/\b(mon|tue|wed|thu|fri|sat|sun)(day)?\b/i` at offset
`i`, returning the match length (6 with the greedy optional `day`, else 3). -/
def weekdayMatchAt (s : Str) (i : Nat) : Option Nat :=
  let ls := lowerStr s
  if prevNonWord s i && weekdayAlts.any (fun w => substrAtB w ls i) then
    if substrAtB dayStr ls (i + 3) && nextNonWord s (i + 6) then some 6
    else if nextNonWord s (i + 3) then some 3
    else none
  else none

/-- Leftmost weekday match, returning the matched slice of the original
text (`weekday[0]`). -/
def weekdayFind (s : Str) : Option Str :=
  (List.range (s.length + 1)).findSome? fun i =>
    (weekdayMatchAt s i).map fun n => (s.drop i).take n

/-- `extractDue` of `parseActionItems`. -/
def extractDue (text : Str) : Option Str :=
  match isoFind text with
  | some m => some m
  | none =>
    match dueTokens.find? (fun t => hasInfixB t (lowerStr text)) with
    | some t => some t
    | none => weekdayFind text

/-- Leftmost match of `/@([a-zA-Z0-9_]+)/`, returning the captured handle. -/
def atHandleFind (s : Str) : Option Str :=
  (List.range s.length).findSome? fun i =>
    match s.drop i with
    | '@' :: rest =>
      let run := rest.takeWhile wordCharB
      if run = [] then none else some run
    | _ => none

/-- The capture class `[a-zA-Z\s'.-]` of the `owner:`/`assigned to` patterns. -/
def ownerTagClass (c : Char) : Bool :=
  isAsciiLetterB c || isWsChar c || c == '\'' || c == '.' || c == '-'

def ownerTagKey : Str := ("owner:").toList

def assignedKey : Str := ("assigned to").toList

/-- Leftmost match of `\b<key>\s*([a-zA-Z][a-zA-Z\s'.-]{1,40})` (flag `i`),
returning the captured group: after the key, the greedy whitespace run, one
letter, then up to 40 further class characters (at least one required). -/
def ownerKeyFind (key s : Str) : Option Str :=
  let ls := lowerStr s
  (List.range (s.length + 1)).findSome? fun i =>
    if prevNonWord s i && substrAtB key ls i then
      let rest := s.drop (i + key.length)
      let rest2 := rest.drop ((rest.takeWhile isWsChar).length)
      match rest2 with
      | a :: more =>
        if isAsciiLetterB a then
          let run := (more.takeWhile ownerTagClass).take 40
          if run = [] then none else some (a :: run)
        else none
      | [] => none
    else none

/-- The capture class `[a-zA-Z'.-]` of the leading `<Name> will` pattern. -/
def willClass (c : Char) : Bool :=
  isAsciiLetterB c || c == '\'' || c == '.' || c == '-'

def willStr : Str := ("will").toList

/-- Anchored match of `/^([A-Z][a-zA-Z'.-]{1,20})\s+will\b/`, returning the
captured name; the greedy `{1,20}` backtracks from the longest candidate. -/
def willOwnerFind (s : Str) : Option Str :=
  match s with
  | [] => none
  | c :: rest =>
    if isUpperB c then
      let run := rest.takeWhile willClass
      ((List.range (min run.length 20)).reverse.map (· + 1)).findSome? fun k =>
        let after := rest.drop k
        let ws := after.takeWhile isWsChar
        if ws ≠ [] && substrAtB willStr (after.drop ws.length) 0 &&
           nextNonWord (after.drop ws.length) 4
        then some (c :: run.take k)
        else none
    else none

def iWillStr : Str := ("i will").toList

def weWillStr : Str := ("we will").toList

def meStr : Str := ("Me").toList

def weStr : Str := ("We").toList

/-- `extractOwner` of `parseActionItems`. -/
def extractOwner (text : Str) : Option Str :=
  match atHandleFind text with
  | some h => some h
  | none =>
  match ownerKeyFind ownerTagKey text with
  | some g => some (trimStr g)
  | none =>
  match ownerKeyFind assignedKey text with
  | some g => some (trimStr g)
  | none =>
  match willOwnerFind text with
  | some g => some (trimStr g)
  | none =>
    if includesWord (lowerStr text) iWillStr then some meStr
    else if includesWord (lowerStr text) weWillStr then some weStr
    else none

/-- A JavaScript line terminator, the characters `.` does not match. -/
def isLineTerm (c : Char) : Bool :=
  c == '\n' || c == '\r' || c.toNat == 0x2028 || c.toNat == 0x2029

def noteKey : Str := ("note:").toList

/-- Leftmost match of `/\bnote:\s*(.+)$/i`, returning the captured group:
the greedy `\s*` backtracks until `(.+)$` can span the rest of the string
without a line terminator. -/
def noteTagFind (s : Str) : Option Str :=
  let ls := lowerStr s
  (List.range (s.length + 1)).findSome? fun i =>
    if prevNonWord s i && substrAtB noteKey ls i then
      let rest := s.drop (i + noteKey.length)
      let ws := rest.takeWhile isWsChar
      ((List.range (ws.length + 1)).reverse).findSome? fun k =>
        let tail := rest.drop k
        if tail ≠ [] && tail.all (fun c => !isLineTerm c) then some tail else none
    else none

/-- Leftmost match of `/\(([^)]+)\)\s*$/`, returning the captured group. -/
def parenFind (s : Str) : Option Str :=
  (List.range (s.length + 1)).findSome? fun i =>
    match s.drop i with
    | '(' :: rest =>
      let run := rest.takeWhile (· ≠ ')')
      if run ≠ [] then
        match rest.drop run.length with
        | ')' :: after => if after.all isWsChar then some run else none
        | _ => none
      else none
    | _ => none

/-- `extractNotes` of `parseActionItems`. -/
def extractNotes (original : Str) : Option Str :=
  match idxOfInfix dashSep original with
  | some i => some (trimStr (original.drop (i + 3)))
  | none =>
  match noteTagFind original with
  | some g => some (trimStr g)
  | none =>
  match parenFind original with
  | some g => some (trimStr g)
  | none => none

/-- The per-bullet item construction of `parseActionItems`. -/
def mkItem (b : Str) : ActionItem :=
  let cleaned := trimStr b
  ⟨cleaned, extractOwner cleaned, extractDue cleaned, extractNotes cleaned⟩

/-- `src/web/lib/recap.ts` `parseActionItems`. -/
def parseActionItems (bullets : List Str) : List ActionItem :=
  (bullets.filter qualifies).map mkItem

/-- `normalizeLines` of `src/web/lib/recap.ts`. -/
def normalizeLines (raw : Str) : List Str :=
  ((splitNl raw).map trimStr).filter (· ≠ [])

/-- The marker strip of `parseBullets`: `l.replace(/^(\*|-|•|\d+[.)])\s+/, "")`. -/
def stripBulletMarker (s : Str) : Str :=
  match s with
  | [] => []
  | c :: t =>
    if c = '*' ∨ c = '-' ∨ c = '•' then
      match t with
      | d :: r => if isWsChar d then (d :: r).dropWhile isWsChar else s
      | [] => s
    else if isDigitB c then
      match t.dropWhile isDigitB with
      | p :: w :: r => if (p = '.' ∨ p = ')') ∧ isWsChar w then (w :: r).dropWhile isWsChar else s
      | _ => s
    else s

/-- `src/web/lib/recap.ts` `parseBullets`. -/
def parseBullets (rawNotes : Str) : List Str :=
  (normalizeLines rawNotes).map fun l => trimStr (stripBulletMarker l)

end Recap

namespace Recap

/-! #### Issue detection (`detectActionIssues` of `src/web/lib/recap.ts`) -/

inductive IssueType where
  | missingOwner
  | missingDueDate
  | vague
deriving DecidableEq

/-- `ActionIssue` of `src/web/lib/recap.ts`. -/
structure ActionIssue where
  type : IssueType
  message : Str
deriving DecidableEq

def atStr : Str := ("@").toList

def todayStr : Str := ("today").toList

def tomorrowStr : Str := ("tomorrow").toList

def nextWeekStr : Str := ("next week").toList

def lookIntoStr : Str := ("look into").toList

def checkOnStr : Str := ("check on").toList

def touchBaseStr : Str := ("touch base").toList

/-- JavaScript string truthiness of an optional string field
(`Boolean(x)`): present and nonempty. -/
def truthyOpt : Option Str → Bool
  | none => false
  | some s => !s.isEmpty

/-- `x ? x : alt` for an optional string field. -/
def truthyOr (o : Option Str) (alt : Str) : Str :=
  match o with
  | some s => if s.isEmpty then alt else s
  | none => alt

/-- The owner heuristic of `detectActionIssues`: extracted owner, or one of
the owner-indicating patterns (`@`, `owner:`, `assigned to` as substrings of
the lower-cased text; `i will` / `we will` as whole words). -/
def hasOwnerB (item : ActionItem) : Bool :=
  let textLower := lowerStr item.text
  truthyOpt item.owner ||
  hasInfixB atStr textLower ||
  hasInfixB ownerTagKey textLower ||
  hasInfixB assignedKey textLower ||
  includesWord textLower iWillStr ||
  includesWord textLower weWillStr

/-- `/\b(mon|tue|wed|thu|fri|sat|sun)\b/i.test(s)` (no optional `day`). -/
def weekdayAbbrevTest (s : Str) : Bool :=
  let ls := lowerStr s
  (List.range (s.length + 1)).any fun i =>
    prevNonWord s i && weekdayAlts.any (fun w => substrAtB w ls i) &&
    nextNonWord s (i + 3)

/-- The due-date heuristic of `detectActionIssues`. -/
def hasDueB (item : ActionItem) : Bool :=
  let textLower := lowerStr item.text
  truthyOpt item.due ||
  hasInfixB todayStr textLower ||
  hasInfixB tomorrowStr textLower ||
  hasInfixB nextWeekStr textLower ||
  weekdayAbbrevTest item.text ||
  (isoFind item.text).isSome

/-- The vagueness heuristic of `detectActionIssues`. -/
def vagueB (item : ActionItem) : Bool :=
  let textLower := lowerStr item.text
  decide (item.text.length < 20) ||
  hasInfixB lookIntoStr textLower ||
  hasInfixB checkOnStr textLower ||
  hasInfixB touchBaseStr textLower

def missingOwnerMsgPre : Str := ("Missing owner: \"").toList

def missingDueMsgPre : Str := ("Missing due date: \"").toList

def vagueMsgPre : Str := ("Possibly vague: \"").toList

def quoteStr : Str := ("\"").toList

/-- The `missingOwner` issue built for `item`. -/
def missingOwnerIssue (item : ActionItem) : ActionIssue :=
  ⟨.missingOwner, missingOwnerMsgPre ++ item.text ++ quoteStr⟩

def missingDueIssue (item : ActionItem) : ActionIssue :=
  ⟨.missingDueDate, missingDueMsgPre ++ item.text ++ quoteStr⟩

def vagueIssue (item : ActionItem) : ActionIssue :=
  ⟨.vague, vagueMsgPre ++ item.text ++ quoteStr⟩

/-- The issues one loop iteration of `detectActionIssues` pushes for `item`. -/
def issuesForItem (item : ActionItem) : List ActionIssue :=
  (if !hasOwnerB item then [missingOwnerIssue item] else []) ++
  (if !hasDueB item then [missingDueIssue item] else []) ++
  (if vagueB item then [vagueIssue item] else [])

/-- `src/web/lib/recap.ts` `detectActionIssues`. -/
def detectActionIssues (items : List ActionItem) : List ActionIssue :=
  items.flatMap issuesForItem

/-! #### Formatters (`formatActionItems`, `makeSummary`) -/

def noActionItemsStr : Str := ("No obvious action items found.").toList

def actionItemsHeader : Str := ("Action Items\n").toList

def dotSp : Str := (". ").toList

def ownerLinePre : Str := ("   - Owner: ").toList

def dueLinePre : Str := ("   - Due: ").toList

def notesLinePre : Str := ("   - Notes: ").toList

def unassignedStr : Str := ("Unassigned").toList

def noDueStr : Str := ("No due date").toList

def checksHeader : Str := ("Checks\n").toList

def natStr (n : Nat) : Str := (Nat.repr n).toList

/-- The lines pushed for one item of `formatActionItems`. -/
def fmtItemBlock (idx : Nat) (item : ActionItem) : List Str :=
  [natStr (idx + 1) ++ dotSp ++ item.text,
   ownerLinePre ++ truthyOr item.owner unassignedStr,
   dueLinePre ++ truthyOr item.due noDueStr] ++
  (match item.notes with
   | some n => if n ≠ [] then [notesLinePre ++ n] else []
   | none => []) ++
  [[]]

def morePre : Str := ("- (+").toList

def moreSuf : Str := (" more)").toList

def issueLinePre : Str := ("- ").toList

/-- `src/web/lib/recap.ts` `formatActionItems` (the legacy third argument is
ignored by the source and omitted here). -/
def formatActionItems (items : List ActionItem) (issues : List ActionIssue) : Str :=
  if items = [] then noActionItemsStr
  else
    let lines :=
      actionItemsHeader ::
      (items.enum.flatMap fun p => fmtItemBlock p.1 p.2) ++
      (if issues ≠ [] then
        checksHeader :: ((issues.take 8).map fun issue => issueLinePre ++ issue.message) ++
        (if 8 < issues.length then [morePre ++ natStr (issues.length - 8) ++ moreSuf] else [])
      else [])
    trimStr (joinNl lines)

def noNotesProvidedStr : Str := ("No notes provided.").toList

def summaryHeader : Str := ("Summary\n").toList

def addNotePre : Str := ("\n(").toList

def addNoteMid : Str := (" additional note").toList

def addNoteSufSingular : Str := (")").toList

def addNoteSufPlural : Str := ("s)").toList

/-- `src/web/lib/recap.ts` `makeSummary`. -/
def makeSummary (bullets : List Str) : Str :=
  if bullets = [] then noNotesProvidedStr
  else
    let top := bullets.take 6
    let restCount := bullets.length - top.length
    let lines :=
      summaryHeader :: top.map (fun b => dashSp ++ b) ++
      (if restCount ≠ 0 then
        [addNotePre ++ natStr restCount ++ addNoteMid ++
         (if restCount = 1 then addNoteSufSingular else addNoteSufPlural)]
      else [])
    joinNl lines

end Recap

/-- Is the character at offset `p` of `s` a word character (`false` past the
end)? -/
def wordAtB (s : Str) (p : Nat) : Bool :=
  match s.drop p with
  | [] => false
  | c :: _ => wordCharB c

/-- The full `\b` assertion at position `p` of `s`: the word-ness of the
character before `p` differs from the word-ness of the character at `p`
(ends of the string count as non-word). -/
def boundaryAt (s : Str) (p : Nat) : Bool :=
  (if p = 0 then false else wordAtB s (p - 1)) != wordAtB s p

/-! ### `src/unnamed/part_001` — the legacy `parseActionItems` -/

namespace Legacy

/-- `ActionItem` of `src/unnamed/part_001`. -/
structure ActionItem where
  raw : Str
  owner : Option Str
  action : Str
  due : Option Str
deriving DecidableEq

def actionVerbs : List Str :=
  [("follow up").toList, ("send").toList, ("share").toList, ("email").toList,
   ("schedule").toList, ("book").toList, ("call").toList, ("confirm").toList,
   ("ask").toList, ("create").toList, ("update").toList, ("review").toList,
   ("meet").toList, ("prepare").toList, ("decide").toList, ("draft").toList,
   ("finalize").toList]

/-- `actionVerb.test(text)`: `/\b(follow up|…|finalize)\b/i`. -/
def actionVerbTest (text : Str) : Bool :=
  actionVerbs.any fun v => includesWord (lowerStr text) v

def ownerKeywords : List Str :=
  [("will").toList, ("to").toList, ("is going to").toList,
   ("needs to").toList, ("should").toList]

/-- The `\s+(will|to|is going to|needs to|should)\b` tail of `ownerPattern`
(case-sensitive), returning the number of characters consumed. -/
def ownerKeywordTail (t : Str) : Option Nat :=
  let ws := t.takeWhile isWsChar
  if ws = [] then none
  else
    let rest := t.drop ws.length
    ownerKeywords.findSome? fun kw =>
      if List.isPrefixOf kw rest && nextNonWord rest kw.length
      then some (ws.length + kw.length)
      else none

/-- Anchored match of `ownerPattern`
`/^([A-Z][a-z]+(?:\s+[A-Z][a-z]+)?)\s+(will|to|is going to|needs to|should)\b/`,
returning the captured name (group 1) and the full match length; the greedy
optional second name is tried first. -/
def ownerPatternMatch (s : Str) : Option (Str × Nat) :=
  match s with
  | [] => none
  | c :: rest =>
    if isUpperB c then
      let run1 := rest.takeWhile isLowerAlphaB
      if run1 = [] then none
      else
        let after1 := rest.drop run1.length
        let withSecond : Option (Str × Nat) :=
          let ws := after1.takeWhile isWsChar
          if ws = [] then none
          else
            match after1.drop ws.length with
            | d :: rest2 =>
              if isUpperB d then
                let run2 := rest2.takeWhile isLowerAlphaB
                if run2 = [] then none
                else
                  let name := (c :: run1) ++ ws ++ (d :: run2)
                  (ownerKeywordTail (rest2.drop run2.length)).map fun klen =>
                    (name, name.length + klen)
              else none
            | [] => none
        match withSecond with
        | some r => some r
        | none =>
          (ownerKeywordTail after1).map fun klen =>
            (c :: run1, run1.length + 1 + klen)
    else none

def dueKw1 : List Str :=
  [("by").toList, ("before").toList, ("on").toList, ("next").toList]

def eodStr : Str := ("eod").toList

def dueAltLits : List Str :=
  [("tomorrow").toList, ("today").toList, ("next week").toList,
   ("next month").toList, ("this week").toList, ("this month").toList]

/-- The alternation
`([A-Za-z]+\s*\d{0,2}|EOD\s+\w+|EOD|tomorrow|today|next week|next month|this week|this month)`
of `duePattern` at offset `k` of `s` (flag `i`), followed by `\b`; returns
the matched length.  The first alternative backtracks greedily: longest
letter run first, then longest whitespace run, then 2, 1, 0 digits. -/
def dueAlt (s : Str) (k : Nat) : Option Nat :=
  let ls := lowerStr s
  let rest := s.drop k
  let alt1 : Option Nat :=
    let letters := rest.takeWhile isAsciiLetterB
    if letters = [] then none
    else
      ((List.range letters.length).reverse.map (· + 1)).findSome? fun letLen =>
        let afterL := rest.drop letLen
        let wsRun := afterL.takeWhile isWsChar
        ((List.range (wsRun.length + 1)).reverse).findSome? fun wsLen =>
          let digits := (afterL.drop wsLen).takeWhile isDigitB
          ((List.range (min 2 digits.length + 1)).reverse).findSome? fun dLen =>
            let total := letLen + wsLen + dLen
            if boundaryAt s (k + total) then some total else none
  match alt1 with
  | some n => some n
  | none =>
    let alt2 : Option Nat :=
      if substrAtB eodStr ls k then
        let afterE := rest.drop 3
        let wsRun := afterE.takeWhile isWsChar
        if wsRun = [] then none
        else
          let w := (afterE.drop wsRun.length).takeWhile wordCharB
          if w = [] then none
          else
            let total := 3 + wsRun.length + w.length
            if boundaryAt s (k + total) then some total else none
      else none
    match alt2 with
    | some n => some n
    | none =>
      let alt3 : Option Nat :=
        if substrAtB eodStr ls k && boundaryAt s (k + 3) then some 3 else none
      match alt3 with
      | some n => some n
      | none =>
        dueAltLits.findSome? fun lit =>
          if substrAtB lit ls k && boundaryAt s (k + lit.length)
          then some lit.length
          else none

/-- Leftmost match of `duePattern`
`/\b(by|before|on|next)\s+([A-Za-z]+\s*\d{0,2}|EOD\s+\w+|EOD|tomorrow|today|next week|next month|this week|this month)\b/i`,
returning the two captured groups as slices of the original text. -/
def duePatternMatch (s : Str) : Option (Str × Str) :=
  let ls := lowerStr s
  (List.range (s.length + 1)).findSome? fun i =>
    if prevNonWord s i then
      dueKw1.findSome? fun kw =>
        if substrAtB kw ls i then
          let j := i + kw.length
          let ws := (s.drop j).takeWhile isWsChar
          if ws = [] then none
          else
            (dueAlt s (j + ws.length)).map fun n =>
              ((s.drop i).take kw.length, (s.drop (j + ws.length)).take n)
        else none
    else none

def actionPrefixKey : Str := ("action:").toList

/-- `/^action:\s*/i.test(text)`. -/
def actionPrefixTest (s : Str) : Bool := substrAtB actionPrefixKey (lowerStr s) 0

/-- `text.replace(/^action:\s*/i, "")`. -/
def stripActionPrefix (s : Str) : Str :=
  if actionPrefixTest s then (s.drop 7).dropWhile isWsChar else s

/-- `/^to\s+\w+/i.test(text)`. -/
def toPrefixTest (s : Str) : Bool :=
  match lowerStr s with
  | 't' :: 'o' :: rest =>
    let ws := rest.takeWhile isWsChar
    ws ≠ [] && wordAtB (rest.drop ws.length) 0
  | _ => false

/-- `text.replace(/^[-•]\s*/, "")`. -/
def stripLeadDash (s : Str) : Str :=
  match s with
  | c :: t => if c = '-' ∨ c = '•' then t.dropWhile isWsChar else s
  | [] => []

/-- The action-candidate test of the legacy `parseActionItems`. -/
def looksLikeAction (text : Str) : Bool :=
  actionVerbTest text || (ownerPatternMatch text).isSome ||
  actionPrefixTest text || toPrefixTest text

/-- `cleaned.replace(ownerPattern, "")` (the pattern is anchored, so the
replace removes the matched prefix). -/
def stripOwnerPattern (cleaned : Str) : Str :=
  match ownerPatternMatch cleaned with
  | some r => cleaned.drop r.2
  | none => cleaned

/-- The item built for one qualifying bullet of the legacy
`parseActionItems`. -/
def mkItem (text : Str) : ActionItem :=
  let cleaned := trimStr (stripActionPrefix (stripLeadDash text))
  let owner := (ownerPatternMatch cleaned).map Prod.fst
  let due := (duePatternMatch cleaned).map fun g => g.1 ++ ' ' :: g.2
  let action := trimStr (stripOwnerPattern cleaned)
  ⟨text, owner, if action = [] then cleaned else action, due⟩

/-- The fallback item of the legacy `parseActionItems`. -/
def fallbackItem (b : Str) : ActionItem :=
  ⟨b, none, trimStr (stripLeadDash b), none⟩

/-- `src/unnamed/part_001` `parseActionItems`: the filtering loop, the
guaranteed fallback to the first five bullets, and the cap of eight items. -/
def parseActionItems (bullets : List Str) : List ActionItem :=
  let items := bullets.filterMap fun b =>
    let text := trimStr b
    if text = [] then none
    else if looksLikeAction text then some (mkItem text) else none
  if items = [] then (bullets.take 5).map fallbackItem
  else items.take 8

end Legacy

/-! ### `src/web/lib/recap.ts` — email drafting -/

namespace Recap

inductive EmailType where
  | followUp
  | question
  | actionComplete
  | actionClarification
  | concern
deriving DecidableEq

inductive EmailTone where
  | professional
  | warm
  | friendlyProfessional
  | casual
deriving DecidableEq

/-- `subjectByType` of `makeEmailDraft`. -/
def subjectByType : EmailType → Str
  | .followUp => ("Follow-Up From Our Meeting").toList
  | .question => ("Quick Question From Our Meeting").toList
  | .actionComplete => ("Update: Action Item Completed").toList
  | .actionClarification => ("Clarification Needed On An Action Item").toList
  | .concern => ("Concern And Follow-Up From Our Meeting").toList

/-- `greetingByTone` of `makeEmailDraft`. -/
def greetingByTone : EmailTone → Str
  | .professional => ("Hi,").toList
  | .warm => ("Hi There,").toList
  | .friendlyProfessional => ("Hi Team,").toList
  | .casual => ("Hey,").toList

/-- `closingByTone` of `makeEmailDraft`. -/
def closingByTone : EmailTone → Str
  | .professional => ("Thanks,").toList
  | .warm => ("Thanks So Much,").toList
  | .friendlyProfessional => ("Thanks!").toList
  | .casual => ("Thanks,").toList

/-- `introByType` of `makeEmailDraft`. -/
def introByType : EmailType → Str
  | .followUp => ("Here Are The Key Points From Our Discussion:").toList
  | .question => ("I Had A Quick Question Coming Out Of Our Discussion:").toList
  | .actionComplete => ("Quick Update - We Completed The Following:").toList
  | .actionClarification => ("Could You Clarify The Following Item From Our Discussion?").toList
  | .concern => ("I Wanted To Flag A Concern And Confirm Next Steps:").toList

/-- `MakeEmailDraftOptions` of `src/web/lib/recap.ts` (an absent
`contextLines` is the empty list). -/
structure MakeEmailDraftOptions where
  type : Option EmailType
  tone : Option EmailTone
  subjectOverride : Option Str
  contextLines : List Str
  maxBullets : Option Nat

def emailDraftHeader : Str := ("Email Draft\n").toList

def subjectPre : Str := ("Subject: ").toList

def nl2 : Str := ("\n\n").toList

def nl1 : Str := ("\n").toList

def contextHeader : Str := ("Context\n").toList

def noNotesLine : Str := ("- (No Notes Provided)").toList

def questionsLine : Str := ("Let Me Know If You Have Questions.").toList

/-- `src/web/lib/recap.ts` `makeEmailDraft`. -/
def makeEmailDraft (bullets : List Str) (opts : MakeEmailDraftOptions) : Str :=
  let type := opts.type.getD .followUp
  let tone := opts.tone.getD .professional
  let maxBullets := opts.maxBullets.getD 6
  let bodyLines := (bullets.take maxBullets).map fun b => dashSp ++ b
  let subject := trimStr (opts.subjectOverride.getD (subjectByType type))
  let contextLines := opts.contextLines.filter (· ≠ [])
  let contextBlock :=
    if contextLines ≠ [] then
      contextHeader ++ joinNl (contextLines.map fun l => dashSp ++ l) ++ nl2
    else []
  let body := joinNl bodyLines
  emailDraftHeader ++
  subjectPre ++ subject ++ nl2 ++
  greetingByTone tone ++ nl2 ++
  contextBlock ++
  introByType type ++ nl1 ++
  (if body = [] then noNotesLine else body) ++ nl2 ++
  questionsLine ++ nl2 ++
  closingByTone tone

/-- `FollowUpEmailHighlight` of `src/web/lib/recap.ts`. -/
structure FollowUpEmailHighlight where
  text : Str
  tag : Option Str

/-- `MakeFollowUpEmailDraftArgs` of `src/web/lib/recap.ts`; the optional
string fields hold the value before the `safeString(...).trim()` coercion. -/
structure MakeFollowUpEmailDraftArgs where
  highlights : List FollowUpEmailHighlight
  followUpType : Option Str
  focusPrompt : Option Str
  emailPrompt : Option Str
  meetingResult : Option Str
  meetingOutcome : Option Str
  emailType : Option EmailType
  emailTone : Option EmailTone

def noneTagStr : Str := ("None").toList

def pendingStr : Str := ("Pending").toList

def noFollowUpPlaceholder : Str := ("(No Follow-Up Items Selected Yet)").toList

/-- The bullet built from one highlight:
`` `${tag && tag !== "None" ? `[${tag}] ` : ""}${text}`.trim() `` (empty when
the highlight text is blank). -/
def highlightBullet (h : FollowUpEmailHighlight) : Str :=
  let tag := trimStr (h.tag.getD [])
  let text := trimStr h.text
  if text = [] then []
  else
    trimStr ((if tag ≠ [] ∧ tag ≠ noneTagStr then '[' :: tag ++ (']' :: ' ' :: []) else []) ++ text)

/-- The bullet list of `makeFollowUpEmailDraftFromHighlights`: the first 50
highlights rendered and blank results dropped, or the single placeholder
bullet when there are no highlights at all. -/
def followUpBullets (highlights : List FollowUpEmailHighlight) : List Str :=
  if highlights.isEmpty then [noFollowUpPlaceholder]
  else ((highlights.take 50).map highlightBullet).filter (· ≠ [])

def followUpTypePre : Str := ("Follow-Up Type: ").toList

def meetingResultPre : Str := ("Meeting Result: ").toList

def focusPre : Str := ("Focus: ").toList

def outcomePre : Str := ("Outcome: ").toList

def emailInstructionsPre : Str := ("Email Instructions: ").toList

/-- The context lines of `makeFollowUpEmailDraftFromHighlights`, in push
order. -/
def followUpContextLines (args : MakeFollowUpEmailDraftArgs) : List Str :=
  let followUpType := trimStr (args.followUpType.getD [])
  let focusPrompt := trimStr (args.focusPrompt.getD [])
  let emailPrompt := trimStr (args.emailPrompt.getD [])
  let meetingResult := trimStr (args.meetingResult.getD [])
  let meetingOutcome := trimStr (args.meetingOutcome.getD [])
  (if followUpType ≠ [] then [followUpTypePre ++ followUpType] else []) ++
  (if meetingResult ≠ [] ∧ meetingResult ≠ pendingStr then [meetingResultPre ++ meetingResult] else []) ++
  (if focusPrompt ≠ [] then [focusPre ++ focusPrompt] else []) ++
  (if meetingOutcome ≠ [] then [outcomePre ++ meetingOutcome] else []) ++
  (if emailPrompt ≠ [] then [emailInstructionsPre ++ emailPrompt] else [])

def subjOverridePre : Str := ("Follow-Up - ").toList

/-- `src/web/lib/recap.ts` `makeFollowUpEmailDraftFromHighlights`. -/
def makeFollowUpEmailDraftFromHighlights (args : MakeFollowUpEmailDraftArgs) : Str :=
  let type := args.emailType.getD .followUp
  let tone := args.emailTone.getD .professional
  let followUpType := trimStr (args.followUpType.getD [])
  let bullets := followUpBullets args.highlights
  let subjectOverride :=
    if followUpType ≠ [] then some (subjOverridePre ++ followUpType) else none
  makeEmailDraft bullets
    ⟨some type, some tone, subjectOverride, followUpContextLines args, some 20⟩

end Recap

/-! ### `src/web/app/api/generate/route.ts` — the boundary -/

namespace Api

def postHeader : Str := ("## Post-Meeting Notes").toList

def outcomeHeader : Str := ("## Meeting Outcome").toList

/-- `buildMergedNotes` of the generate route. -/
def buildMergedNotes (rawNotes postMeetingNotes meetingOutcome : Str) : Str :=
  let raw := trimStr rawNotes
  let post := trimStr postMeetingNotes
  let outcome := trimStr meetingOutcome
  let parts :=
    (if raw ≠ [] then [raw] else []) ++
    (if post ≠ [] then [[], postHeader, post] else []) ++
    (if outcome ≠ [] then [[], outcomeHeader, outcome] else [])
  joinNl parts

/-- The outcome of the `POST` handler: a 400 validation rejection, a 413
size rejection carrying the merged length, or the pipeline outputs
(summary, action items; the email of this route is always empty).  The
pipeline functions appear only under `ok`: a rejected request never reaches
them. -/
inductive GenerateResult where
  | missingInput : GenerateResult
  | tooLarge : Nat → GenerateResult
  | ok : Str → Str → GenerateResult
deriving DecidableEq

/-- The `POST` handler of `src/web/app/api/generate/route.ts` (the version
with the `meetingOutcome` field and the 50 000-character guard): inputs are
cleaned, the all-empty check runs first, then the size guard, and only then
the deterministic pipeline. -/
def postGenerate (rawNotes postMeetingNotes meetingOutcome : Str) : GenerateResult :=
  let r := trimStr rawNotes
  let p := trimStr postMeetingNotes
  let o := trimStr meetingOutcome
  if r = [] ∧ p = [] ∧ o = [] then .missingInput
  else
    let merged := buildMergedNotes r p o
    if 50000 < merged.length then .tooLarge merged.length
    else
      let bullets := Recap.parseBullets merged
      let items := Recap.parseActionItems bullets
      let issues := Recap.detectActionIssues items
      .ok (Recap.makeSummary bullets) (Recap.formatActionItems items issues)

end Api

/-- No two adjacent space/tab characters in a collapsed list. -/
def NoSpRun (l : Str) : Prop :=
  List.Chain' (fun a b => ¬(spTab a = true ∧ spTab b = true)) l

/-- The concrete follow-up request of the C3 scenario: one highlight
`Confirm budget` tagged `Urgent`, email type `concern`, tone `warm`. -/
def c3Args : Recap.MakeFollowUpEmailDraftArgs :=
  ⟨[⟨("Confirm budget").toList, some (("Urgent").toList)⟩],
    none, none, none, none, none,
    some Recap.EmailType.concern, some Recap.EmailTone.warm⟩

def c3Email : Str := Recap.makeFollowUpEmailDraftFromHighlights c3Args

/-- The `c9Item` whose text contains `i will` only inside longer words. -/
def c9Item : Recap.ActionItem := ⟨("ski willow").toList, none, none, none⟩

set_option maxRecDepth 20000

/-! ### Basic lemmas: trimming, collapsing, normalization -/

lemma dropWhile_dropWhile (p : Char → Bool) (l : Str) :
    (l.dropWhile p).dropWhile p = l.dropWhile p := by
  induction l with
  | nil => rfl
  | cons c t ih =>
    by_cases h : p c
    · simp [List.dropWhile_cons, h, ih]
    · simp [List.dropWhile_cons, h]

lemma trimL_trimL (s : Str) : trimL (trimL s) = trimL s :=
  dropWhile_dropWhile isWsChar s

lemma trimR_trimR (s : Str) : trimR (trimR s) = trimR s := by
  simp [trimR, dropWhile_dropWhile]

/-- A `trimL`-fixed list is either empty or starts with a non-whitespace
character. -/
lemma trimL_fixed_head {s : Str} (h : trimL s = s) :
    s = [] ∨ ∃ c t, s = c :: t ∧ isWsChar c = false := by
  cases s with
  | nil => exact Or.inl rfl
  | cons c t =>
    refine Or.inr ⟨c, t, rfl, ?_⟩
    by_contra hb
    have hc : isWsChar c = true := by
      cases hx : isWsChar c
      · exact absurd hx hb
      · rfl
    have := h
    rw [trimL, List.dropWhile_cons, if_pos hc] at this
    have hlen := congrArg List.length this
    have hle := (List.dropWhile_sublist isWsChar (l := t)).length_le
    simp at hlen
    omega

/-- `trimL` of a prefix of a `trimL`-fixed list is itself. -/
lemma trimL_prefix_fixed {s y : Str} (hs : trimL s = s) (hy : y <+: s) :
    trimL y = y := by
  rcases trimL_fixed_head hs with h0 | ⟨c, t, rfl, hc⟩
  · subst h0
    rcases List.prefix_nil.mp hy with rfl
    rfl
  · cases y with
    | nil => rfl
    | cons d u =>
      have hd : d = c := by
        rcases hy with ⟨r, hr⟩
        cases hr
        rfl
      subst hd
      simp [trimL, List.dropWhile_cons, hc]

lemma trimR_isPrefix (s : Str) : trimR s <+: s := by
  have h := List.dropWhile_suffix (l := s.reverse) isWsChar
  have := h.reverse
  simpa [trimR] using this

lemma trimStr_idem (s : Str) : trimStr (trimStr s) = trimStr s := by
  have h1 : trimL (trimStr s) = trimStr s :=
    trimL_prefix_fixed (trimL_trimL s) (trimR_isPrefix (trimL s))
  show trimR (trimL (trimStr s)) = trimStr s
  rw [h1]
  exact trimR_trimR (trimL s)

/-- Every character of the collapsed list is a space or a non-space-tab
character of the input. -/
lemma mem_collapseAux {x : Char} : ∀ {l : Str} {f : Bool},
    x ∈ collapseAux f l → x = ' ' ∨ (x ∈ l ∧ spTab x = false) := by
  intro l
  induction l with
  | nil => intro f hx; simp [collapseAux] at hx
  | cons c t ih =>
    intro f hx
    rw [collapseAux] at hx
    by_cases hc : spTab c = true
    · rw [if_pos hc] at hx
      cases f with
      | true =>
        rcases ih hx with h | ⟨h1, h2⟩
        · exact Or.inl h
        · exact Or.inr ⟨List.mem_cons_of_mem _ h1, h2⟩
      | false =>
        rcases List.mem_cons.mp hx with rfl | hx2
        · exact Or.inl rfl
        · rcases ih hx2 with h | ⟨h1, h2⟩
          · exact Or.inl h
          · exact Or.inr ⟨List.mem_cons_of_mem _ h1, h2⟩
    · rw [if_neg hc] at hx
      rcases List.mem_cons.mp hx with rfl | hx2
      · exact Or.inr ⟨List.mem_cons_self _ _, Bool.eq_false_iff.mpr hc⟩
      · rcases ih hx2 with h | ⟨h1, h2⟩
        · exact Or.inl h
        · exact Or.inr ⟨List.mem_cons_of_mem _ h1, h2⟩

lemma mem_collapse {x : Char} {l : Str} (hx : x ∈ collapseSpTab l) :
    x = ' ' ∨ (x ∈ l ∧ spTab x = false) :=
  mem_collapseAux hx

/-- In run mode, the collapse emits a non-space-tab character first. -/
lemma collapseAux_true_head : ∀ {l : Str} {c : Char} {t : Str},
    collapseAux true l = c :: t → spTab c = false := by
  intro l
  induction l with
  | nil => intro c t h; simp [collapseAux] at h
  | cons d u ih =>
    intro c t h
    rw [collapseAux] at h
    by_cases hd : spTab d = true
    · rw [if_pos hd] at h
      exact ih h
    · rw [if_neg hd] at h
      cases h
      exact Bool.eq_false_iff.mpr hd

lemma collapseAux_noSpRun : ∀ (l : Str) (f : Bool), NoSpRun (collapseAux f l) := by
  intro l
  induction l with
  | nil => intro f; simp [NoSpRun, collapseAux]
  | cons c t ih =>
    intro f
    rw [collapseAux]
    by_cases hc : spTab c = true
    · rw [if_pos hc]
      cases f with
      | true => exact ih true
      | false =>
        apply List.chain'_cons'.mpr
        refine ⟨?_, ih true⟩
        intro y hy
        cases hcc : collapseAux true t with
        | nil => simp [hcc] at hy
        | cons z zs =>
          rw [hcc] at hy
          simp at hy
          subst hy
          have := collapseAux_true_head hcc
          intro hcon
          rw [this] at hcon
          exact Bool.false_ne_true hcon.2
    · rw [if_neg hc]
      apply List.chain'_cons'.mpr
      refine ⟨?_, ih false⟩
      intro y _
      intro hcon
      exact hc hcon.1

lemma collapse_noSpRun (l : Str) : NoSpRun (collapseSpTab l) :=
  collapseAux_noSpRun l false

/-- A list with no tab (every space/tab character is the space), and no two
adjacent space/tab characters, is a fixed point of the collapse. -/
lemma collapseAux_fixed : ∀ (l : Str),
    (∀ c ∈ l, spTab c = true → c = ' ') → NoSpRun l →
    collapseAux false l = l ∧
    ((∀ c t, l = c :: t → spTab c = false) → collapseAux true l = l) := by
  intro l
  induction l with
  | nil => intro _ _; exact ⟨rfl, fun _ => rfl⟩
  | cons c t ih =>
    intro h1 h2
    have iht := ih (fun x hx hsx => h1 x (List.mem_cons_of_mem _ hx) hsx)
      (List.Chain'.tail h2)
    constructor
    · rw [collapseAux]
      by_cases hc : spTab c = true
      · rw [if_pos hc]
        have hcs : c = ' ' := h1 c (List.mem_cons_self _ _) hc
        have htt : collapseAux true t = t := by
          apply iht.2
          intro d u hdu
          subst hdu
          have hrel := (List.chain'_cons'.mp h2).1 d (by simp)
          cases hdd : spTab d
          · rfl
          · exact absurd ⟨hc, hdd⟩ hrel
        rw [htt, hcs]
        simp
      · rw [if_neg hc, iht.1]
    · intro hhead
      have hc : spTab c = false := hhead c t rfl
      rw [collapseAux, hc]
      simp only [Bool.false_eq_true, if_false]
      rw [iht.1]

lemma collapse_fixed {l : Str}
    (h1 : ∀ c ∈ l, spTab c = true → c = ' ')
    (h2 : NoSpRun l) : collapseSpTab l = l :=
  (collapseAux_fixed l h1 h2).1

lemma noSpRun_of_sublistc {l m : Str} (h : NoSpRun l) (hs : m <:+: l) :
    NoSpRun m := by
  rcases hs with ⟨pre, post, rfl⟩
  exact ((h.left_of_append.right_of_append))

lemma noSpRun_trimStr {l : Str} (h : NoSpRun l) : NoSpRun (trimStr l) := by
  apply noSpRun_of_sublistc h
  have h1 : trimL l <:+ l := List.dropWhile_suffix isWsChar
  have h2 : trimStr l <+: trimL l := trimR_isPrefix (trimL l)
  exact h2.isInfix.trans h1.isInfix

lemma mem_trimStr {c : Char} {l : Str} (h : c ∈ trimStr l) : c ∈ l := by
  have h1 : trimStr l <+: trimL l := trimR_isPrefix (trimL l)
  have h2 : trimL l <:+ l := List.dropWhile_suffix isWsChar
  exact h2.sublist.mem (h1.sublist.mem h)

/-- `normalizeLine` is idempotent. -/
lemma normalizeLine_idem (s : Str) :
    normalizeLine (normalizeLine s) = normalizeLine s := by
  set u := normalizeLine s with hu
  have humem : ∀ c ∈ u, c = ' ' ∨ (c ∈ nbspFix s ∧ spTab c = false) := by
    intro c hc
    rw [hu, normalizeLine] at hc
    exact mem_collapse (mem_trimStr hc)
  have hnbsp : nbspFix u = u := by
    rw [nbspFix]
    have hmc : u.map (fun c => if c.toNat == 160 then ' ' else c) = u.map id := by
      apply List.map_congr_left
      intro c hc
      show (if c.toNat == 160 then ' ' else c) = c
      rcases humem c hc with rfl | ⟨hmem, _⟩
      · rfl
      · have hne : c.toNat ≠ 160 := by
          rw [nbspFix] at hmem
          rcases List.mem_map.mp hmem with ⟨c0, _, hc0⟩
          by_cases h0 : c0.toNat = 160
          · rw [← hc0]
            simp [h0]
          · rw [← hc0]
            simp [h0]
        simp [hne]
    simpa using hmc
  have hcol : collapseSpTab u = u := by
    apply collapse_fixed
    · intro c hc hsp
      rcases humem c hc with rfl | ⟨_, hns⟩
      · rfl
      · rw [hns] at hsp; cases hsp
    · rw [hu, normalizeLine]
      exact noSpRun_trimStr (collapse_noSpRun (nbspFix s))
  have htrim : trimStr u = u := by
    rw [hu, normalizeLine]
    exact trimStr_idem _
  rw [normalizeLine, hnbsp, hcol, htrim]

/-! ### Lemmas on the dedup pass of `Legacy.toBullets` -/

namespace Legacy

lemma dedupAux_not_mem_seen {seen : List Str} {l : List Str} :
    ∀ x ∈ dedupAux seen l, lowerStr x ∉ seen := by
  induction l generalizing seen with
  | nil => intro x hx; simp [dedupAux] at hx
  | cons s t ih =>
    intro x hx
    rw [dedupAux] at hx
    by_cases hs : lowerStr s ∈ seen
    · rw [if_pos hs] at hx
      exact ih x hx
    · rw [if_neg hs] at hx
      rcases List.mem_cons.mp hx with rfl | hx2
      · exact hs
      · have := ih x hx2
        intro hmem
        exact this (List.mem_cons_of_mem _ hmem)

lemma dedupAux_pairwise (seen : List Str) (l : List Str) :
    List.Pairwise (fun a b => lowerStr a ≠ lowerStr b) (dedupAux seen l) := by
  induction l generalizing seen with
  | nil => simp [dedupAux]
  | cons s t ih =>
    rw [dedupAux]
    by_cases hs : lowerStr s ∈ seen
    · rw [if_pos hs]; exact ih seen
    · rw [if_neg hs]
      refine List.pairwise_cons.mpr ⟨?_, ih _⟩
      intro y hy
      have := dedupAux_not_mem_seen y hy
      intro heq
      exact this (heq ▸ List.mem_cons_self _ _)

lemma dedupAux_sublist (seen : List Str) (l : List Str) :
    (dedupAux seen l).Sublist l := by
  induction l generalizing seen with
  | nil => simp [dedupAux]
  | cons s t ih =>
    rw [dedupAux]
    by_cases hs : lowerStr s ∈ seen
    · rw [if_pos hs]; exact (ih seen).cons s
    · rw [if_neg hs]; exact (ih _).cons₂ s

/-- First occurrence wins: every kept element is the first element of the
input whose lower-cased key matches it. -/
lemma dedupAux_find? {seen : List Str} {l : List Str} :
    ∀ x ∈ dedupAux seen l,
      l.find? (fun y => lowerStr y == lowerStr x) = some x := by
  induction l generalizing seen with
  | nil => intro x hx; simp [dedupAux] at hx
  | cons s t ih =>
    intro x hx
    rw [dedupAux] at hx
    by_cases hs : lowerStr s ∈ seen
    · rw [if_pos hs] at hx
      have hne : ¬ lowerStr s = lowerStr x := by
        intro heq
        exact dedupAux_not_mem_seen x hx (heq ▸ hs)
      rw [List.find?_cons_of_neg _ (by simpa using hne)]
      exact ih x hx
    · rw [if_neg hs] at hx
      rcases List.mem_cons.mp hx with rfl | hx2
      · rw [List.find?_cons_of_pos _ (by simp)]
      · have hne : ¬ lowerStr s = lowerStr x := by
          intro heq
          exact dedupAux_not_mem_seen x hx2 (heq ▸ List.mem_cons_self _ _)
        rw [List.find?_cons_of_neg _ (by simpa using hne)]
        exact ih x hx2

/-- A list with pairwise distinct keys, none already seen, is a fixed point
of the dedup pass. -/
lemma dedupAux_fixed {seen : List Str} {l : List Str}
    (hp : List.Pairwise (fun a b => lowerStr a ≠ lowerStr b) l)
    (hseen : ∀ x ∈ l, lowerStr x ∉ seen) :
    dedupAux seen l = l := by
  induction l generalizing seen with
  | nil => rfl
  | cons s t ih =>
    rw [dedupAux, if_neg (hseen s (List.mem_cons_self _ _))]
    congr 1
    apply ih (List.Pairwise.of_cons hp)
    intro x hx
    intro hmem
    rcases List.mem_cons.mp hmem with heq | hmem2
    · exact (List.pairwise_cons.mp hp).1 x hx heq.symm
    · exact hseen x (List.mem_cons_of_mem _ hx) hmem2

/-- Every element of `cleaned raw` is a fixed point of `normalizeLine`. -/
lemma cleaned_normalized {raw : Str} :
    ∀ b ∈ cleaned raw, normalizeLine b = b := by
  intro b hb
  rw [cleaned] at hb
  have hb2 := List.mem_of_mem_filter hb
  rcases List.mem_map.mp hb2 with ⟨y, _, rfl⟩
  exact normalizeLine_idem y

/-- `toBullets` either returns nothing or the dedup of the cleaned
candidates. -/
lemma toBullets_eq (text : Str) :
    toBullets text = [] ∨
      (trimStr (crlfFix text) ≠ [] ∧
       toBullets text = dedupStr (cleaned (trimStr (crlfFix text)))) := by
  rw [toBullets]
  by_cases h : trimStr (crlfFix text) = []
  · rw [if_pos h]; exact Or.inl rfl
  · rw [if_neg h]; exact Or.inr ⟨h, rfl⟩

end Legacy

/-! ### Lemmas for re-segmentation (claim C5) -/

lemma map_fixed {f : Str → Str} {l : List Str} (h : ∀ b ∈ l, f b = b) :
    l.map f = l := by
  have := List.map_congr_left (g := id) (l := l) h
  simpa using this

lemma flatMap_fixed {f : Str → List Str} {l : List Str}
    (h : ∀ b ∈ l, f b = [b]) : l.flatMap f = l := by
  induction l with
  | nil => rfl
  | cons b t ih =>
    rw [List.flatMap_cons, h b (List.mem_cons_self _ _),
      ih fun x hx => h x (List.mem_cons_of_mem _ hx)]
    rfl

lemma filter_ne_nil_fixed {l : List Str} (h : ∀ b ∈ l, b ≠ []) :
    l.filter (· ≠ []) = l := by
  apply List.filter_eq_self.mpr
  intro a ha
  simpa using h a ha

lemma mem_joinNl {c : Char} : ∀ {l : List Str}, c ∈ joinNl l →
    c = '\n' ∨ ∃ b ∈ l, c ∈ b := by
  intro l
  induction l with
  | nil => intro h; simp [joinNl] at h
  | cons b t ih =>
    intro h
    cases t with
    | nil =>
      exact Or.inr ⟨b, List.mem_cons_self _ _, by simpa [joinNl] using h⟩
    | cons d u =>
      rw [joinNl] at h
      rcases List.mem_append.mp h with hb | hrest
      · exact Or.inr ⟨b, List.mem_cons_self _ _, hb⟩
      · rcases List.mem_cons.mp hrest with rfl | hj
        · exact Or.inl rfl
        · rcases ih hj with h1 | ⟨b2, hb2, hc2⟩
          · exact Or.inl h1
          · exact Or.inr ⟨b2, List.mem_cons_of_mem _ hb2, hc2⟩

lemma crlfFix_id {s : Str} (h : ∀ c ∈ s, c ≠ '\r') : crlfFix s = s := by
  induction s using crlfFix.induct with
  | case1 => simp [crlfFix]
  | case2 t _ =>
    exact absurd rfl (h '\r' (List.mem_cons_self _ _))
  | case3 c t hcr ih =>
    rw [crlfFix]
    · rw [ih fun x hx => h x (List.mem_cons_of_mem _ hx)]
    · exact hcr

lemma splitCh_ne_nil (sep : Char) (l : Str) : splitCh sep l ≠ [] := by
  induction l with
  | nil => simp [splitCh]
  | cons c t ih =>
    rw [splitCh]
    by_cases h : c = sep
    · rw [if_pos h]; simp
    · rw [if_neg h]
      cases hs : splitCh sep t with
      | nil => simp
      | cons a b => simp

lemma splitCh_append {sep : Char} {b l : Str} (hb : ∀ c ∈ b, c ≠ sep) :
    splitCh sep (b ++ l) =
      match splitCh sep l with
      | [] => [b]
      | h :: r => (b ++ h) :: r := by
  induction b with
  | nil =>
    cases hs : splitCh sep l with
    | nil => exact absurd hs (splitCh_ne_nil sep l)
    | cons a r => simp [hs]
  | cons c t ih =>
    have hc : c ≠ sep := hb c (List.mem_cons_self _ _)
    rw [List.cons_append, splitCh, if_neg hc,
      ih fun x hx => hb x (List.mem_cons_of_mem _ hx)]
    cases hs : splitCh sep l with
    | nil => exact absurd hs (splitCh_ne_nil sep l)
    | cons a r => simp

lemma splitCh_single {sep : Char} {b : Str} (hb : ∀ c ∈ b, c ≠ sep) :
    splitCh sep b = [b] := by
  have := splitCh_append (l := []) hb
  simpa [splitCh] using this

lemma splitNl_joinNl {l : List Str} (hl : l ≠ [])
    (hb : ∀ b ∈ l, ∀ c ∈ b, c ≠ '\n') :
    splitNl (joinNl l) = l := by
  induction l with
  | nil => exact absurd rfl hl
  | cons b t ih =>
    cases t with
    | nil =>
      show splitCh '\n' (joinNl [b]) = [b]
      rw [joinNl]
      exact splitCh_single fun c hc => hb b (List.mem_cons_self _ _) c hc
    | cons d u =>
      show splitCh '\n' (joinNl (b :: d :: u)) = b :: d :: u
      rw [joinNl]
      rw [splitCh_append fun c hc => hb b (List.mem_cons_self _ _) c hc]
      have hrec : splitCh '\n' ('\n' :: joinNl (d :: u)) =
          [] :: splitCh '\n' (joinNl (d :: u)) := by
        rw [splitCh, if_pos rfl]
      rw [hrec]
      have := ih (by simp) fun x hx c hc => hb x (List.mem_cons_of_mem _ hx) c hc
      rw [show splitNl (joinNl (d :: u)) = splitCh '\n' (joinNl (d :: u)) from rfl] at this
      simp [this]

lemma normFixed_trimFixed {b : Str} (h : normalizeLine b = b) : trimStr b = b := by
  have h2 : trimStr (normalizeLine b) = normalizeLine b := by
    rw [normalizeLine]
    exact trimStr_idem _
  rw [h] at h2
  exact h2

lemma trimFixed_trimL {b : Str} (h : trimStr b = b) : trimL b = b := by
  have hp : trimStr b <+: trimL b := trimR_isPrefix (trimL b)
  rw [h] at hp
  have hs : (trimL b).Sublist b := List.dropWhile_sublist isWsChar
  have hlen : b.length = (trimL b).length :=
    Nat.le_antisymm hp.length_le hs.length_le
  exact (hp.eq_of_length hlen).symm

lemma trimFixed_trimR {b : Str} (h : trimStr b = b) : trimR b = b := by
  have := h
  rw [trimStr, trimFixed_trimL h] at this
  exact this

lemma trimFixed_head {b : Str} (h : trimStr b = b) :
    b = [] ∨ ∃ c t, b = c :: t ∧ isWsChar c = false :=
  trimL_fixed_head (trimFixed_trimL h)

lemma trimR_append_right {x y : Str} (hy : y ≠ []) (h : trimR y = y) :
    trimR (x ++ y) = x ++ y := by
  have hdw : y.reverse.dropWhile isWsChar = y.reverse := by
    have := congrArg List.reverse h
    rwa [trimR, List.reverse_reverse] at this
  rcases trimL_fixed_head (s := y.reverse) hdw with h0 | ⟨d, u, hdu, hd⟩
  · exact absurd (by simpa using h0) hy
  · rw [trimR, List.reverse_append, hdu, List.cons_append,
      List.dropWhile_cons, if_neg (by simp [hd])]
    rw [← List.cons_append, ← hdu, List.reverse_append, List.reverse_reverse,
      List.reverse_reverse]

lemma joinNl_head {b : Str} (t : List Str) :
    ∃ s, joinNl (b :: t) = b ++ s := by
  cases t with
  | nil => exact ⟨[], by simp [joinNl]⟩
  | cons d u => exact ⟨'\n' :: joinNl (d :: u), by rw [joinNl]⟩

lemma joinNl_last {l : List Str} (hl : l ≠ []) :
    ∃ pre, joinNl l = pre ++ l.getLast hl := by
  induction l with
  | nil => exact absurd rfl hl
  | cons b t ih =>
    cases t with
    | nil => exact ⟨[], by simp [joinNl]⟩
    | cons d u =>
      rcases ih (by simp) with ⟨pre, hpre⟩
      refine ⟨b ++ '\n' :: pre, ?_⟩
      rw [joinNl, List.getLast_cons (by simp), hpre]
      simp

/-- Re-segmenting a clean bullet list reproduces it: the bullets are
nonempty, normalization-fixed, free of line breaks, carriage returns,
leading markers and inline separators, have pairwise distinct lower-cased
keys, and the list is not a single bullet longer than 80 characters. -/
lemma toBullets_roundTrip (out : List Str)
    (hne : ∀ b ∈ out, b ≠ [])
    (hnorm : ∀ b ∈ out, normalizeLine b = b)
    (hchar : ∀ b ∈ out, ∀ c ∈ b, c ≠ '\n' ∧ c ≠ '\r')
    (hmark : ∀ b ∈ out, Legacy.stripMarker b = b)
    (hglyph : ∀ b ∈ out, Legacy.splitByPred Legacy.isGlyph b = [b])
    (hdash : ∀ b ∈ out, Legacy.splitTriple '-' b = [b])
    (hpipe : ∀ b ∈ out, Legacy.splitTriple '|' b = [b])
    (hkeys : List.Pairwise (fun a b => lowerStr a ≠ lowerStr b) out)
    (hlong : ∀ b, out = [b] → b.length ≤ 80) :
    Legacy.toBullets (joinNl out) = out := by
  cases out with
  | nil => simp [Legacy.toBullets, crlfFix, trimStr, trimL, trimR, joinNl]
  | cons b0 rest =>
  have hmem0 : b0 ∈ b0 :: rest := List.mem_cons_self _ _
  -- step 1: the CRLF pass is the identity
  have hcrlf : crlfFix (joinNl (b0 :: rest)) = joinNl (b0 :: rest) := by
    apply crlfFix_id
    intro c hc
    rcases mem_joinNl hc with rfl | ⟨b, hb, hcb⟩
    · decide
    · exact (hchar b hb c hcb).2
  -- heads and tails are not whitespace
  have htrimF : ∀ b ∈ b0 :: rest, trimStr b = b :=
    fun b hb => normFixed_trimFixed (hnorm b hb)
  have hhead : ∃ c t, b0 = c :: t ∧ isWsChar c = false := by
    rcases trimFixed_head (htrimF b0 hmem0) with h0 | h
    · exact absurd h0 (hne b0 hmem0)
    · exact h
  -- step 2: trimming the join is the identity
  have htrim : trimStr (joinNl (b0 :: rest)) = joinNl (b0 :: rest) := by
    have hlast := joinNl_last (l := b0 :: rest) (by simp)
    rcases hlast with ⟨pre, hpre⟩
    have hlastmem : (b0 :: rest).getLast (by simp) ∈ b0 :: rest :=
      List.getLast_mem _
    have htl : trimL (joinNl (b0 :: rest)) = joinNl (b0 :: rest) := by
      rcases joinNl_head (b := b0) rest with ⟨s, hs⟩
      rcases hhead with ⟨c, t, hb0, hcw⟩
      rw [hs, hb0, List.cons_append, trimL, List.dropWhile_cons, if_neg (by simp [hcw])]
    rw [trimStr, htl, hpre]
    exact trimR_append_right (hne _ hlastmem)
      (trimFixed_trimR (htrimF _ hlastmem))
  -- step 3: the joined text is nonempty
  have hjoin_ne : joinNl (b0 :: rest) ≠ [] := by
    rcases joinNl_head (b := b0) rest with ⟨s, hs⟩
    rcases hhead with ⟨c, t, hb0, _⟩
    rw [hs, hb0]
    simp
  -- step 4: the line split recovers the bullets
  have hlines : Legacy.toBulletLines (joinNl (b0 :: rest)) = b0 :: rest := by
    rw [Legacy.toBulletLines]
    have hsplit : splitNl (joinNl (b0 :: rest)) = b0 :: rest :=
      splitNl_joinNl (by simp) fun b hb c hc => (hchar b hb c hc).1
    rw [hsplit, map_fixed hnorm, filter_ne_nil_fixed hne]
  -- step 5: the structured branch is taken and is the identity
  have hsplitLine : ∀ b ∈ b0 :: rest, Legacy.splitLine b = [b] := by
    intro b hb
    rw [Legacy.splitLine]
    have h1 : Legacy.splitByPred Legacy.isGlyph b = [b] := hglyph b hb
    have hparts :
        (((((Legacy.splitByPred Legacy.isGlyph b).flatMap (Legacy.splitTriple '-')).flatMap
            (Legacy.splitTriple '|')).map normalizeLine).filter (· ≠ [])) = [b] := by
      rw [h1]
      simp only [List.flatMap_cons, List.flatMap_nil, List.append_nil]
      rw [hdash b hb]
      simp only [List.flatMap_cons, List.flatMap_nil, List.append_nil]
      rw [hpipe b hb]
      simp only [List.map_cons, List.map_nil]
      rw [hnorm b hb]
      simp [hne b hb]
    rw [hparts]
    rw [if_neg (by simp)]
  have hcand : Legacy.candidates (joinNl (b0 :: rest)) = b0 :: rest := by
    rw [Legacy.candidates, hlines]
    have hbranch : ¬((b0 :: rest).length ≤ 1 ∧ 80 < (joinNl (b0 :: rest)).length) := by
      rintro ⟨hlen, hgt⟩
      cases rest with
      | cons d u => simp at hlen
      | nil =>
        have := hlong b0 rfl
        rw [show joinNl [b0] = b0 from rfl] at hgt
        omega
    rw [if_neg hbranch]
    exact flatMap_fixed hsplitLine
  -- step 6: cleaning is the identity, dedup is the identity
  have hclean : Legacy.cleaned (joinNl (b0 :: rest)) = b0 :: rest := by
    rw [Legacy.cleaned, hcand, map_fixed hmark, map_fixed hnorm,
      filter_ne_nil_fixed hne]
  rw [Legacy.toBullets, hcrlf, htrim, if_neg hjoin_ne, hclean]
  exact Legacy.dedupAux_fixed hkeys fun x _ => by simp

/-! ### Occurrence and word-boundary bridges -/

lemma hasInfixB_iff {w s : Str} (hw : w ≠ []) :
    hasInfixB w s = true ↔ ∃ i, w <+: s.drop i := by
  rw [hasInfixB, List.any_eq_true]
  constructor
  · rintro ⟨i, _, hsub⟩
    exact ⟨i, List.isPrefixOf_iff_prefix.mp hsub⟩
  · rintro ⟨i, hpre⟩
    have hi : i < s.length := by
      by_contra hge
      have : s.drop i = [] := List.drop_eq_nil_of_le (by omega)
      rw [this] at hpre
      exact hw (List.prefix_nil.mp hpre)
    exact ⟨i, List.mem_range.mpr (by omega), List.isPrefixOf_iff_prefix.mpr hpre⟩

lemma hasInfixB_iff_occurs {w s : Str} (hw : w ≠ []) :
    hasInfixB w s = true ↔ w <:+: s := by
  rw [hasInfixB_iff hw]
  constructor
  · rintro ⟨i, hpre⟩
    exact hpre.isInfix.trans (List.drop_suffix i s).isInfix
  · rintro ⟨pre, post, rfl⟩
    refine ⟨pre.length, ?_⟩
    rw [List.append_assoc, List.drop_left]
    exact ⟨post, rfl⟩

lemma includesWord_iff {s w : Str} (hw : w ≠ []) :
    includesWord s w = true ↔
      ∃ i, w <+: s.drop i ∧ prevNonWord s i = true ∧
        nextNonWord s (i + w.length) = true := by
  rw [includesWord, List.any_eq_true]
  constructor
  · rintro ⟨i, _, hcond⟩
    rw [Bool.and_eq_true, Bool.and_eq_true] at hcond
    exact ⟨i, List.isPrefixOf_iff_prefix.mp hcond.1.1, hcond.1.2, hcond.2⟩
  · rintro ⟨i, hpre, hprev, hnext⟩
    have hi : i < s.length := by
      by_contra hge
      have : s.drop i = [] := List.drop_eq_nil_of_le (by omega)
      rw [this] at hpre
      exact hw (List.prefix_nil.mp hpre)
    refine ⟨i, List.mem_range.mpr (by omega), ?_⟩
    rw [Bool.and_eq_true, Bool.and_eq_true]
    exact ⟨⟨List.isPrefixOf_iff_prefix.mpr hpre, hprev⟩, hnext⟩

/-- A whitespace character is unchanged by `Char.toLower`. -/
lemma toLower_ws_fixed {c : Char} (h : isWsChar c = true) : Char.toLower c = c := by
  have hn : ¬(c.toNat ≥ 65 ∧ c.toNat ≤ 90) := by
    rw [isWsChar] at h
    simp only [Bool.or_eq_true, beq_iff_eq, Bool.and_eq_true, decide_eq_true_eq] at h
    rintro ⟨h65, h90⟩
    rcases h with
      (((((((((((((h | h) | h) | h) | h) | h) | h) | h) | ⟨h1, h2⟩) | h) | h) | h) | h) | h) | h
    all_goals first
      | (rw [h] at h65; revert h65; decide)
      | omega
  rw [Char.toLower]
  exact if_neg hn

/-- An entirely-trimmed-away string is all whitespace. -/
lemma trim_nil_ws {b : Str} (h : trimStr b = []) : ∀ c ∈ b, isWsChar c = true := by
  have hR : (trimL b).reverse.dropWhile isWsChar = [] := by
    rw [trimStr, trimR] at h
    exact List.reverse_eq_nil_iff.mp (by rw [h]) |> fun hh => hh
  have hAllL : ∀ c ∈ trimL b, isWsChar c = true := by
    intro c hc
    exact List.dropWhile_eq_nil_iff.mp hR c (List.mem_reverse.mpr hc)
  intro c hc
  rcases List.mem_append.mp
      (by rw [List.takeWhile_append_dropWhile (p := isWsChar) (l := b)]; exact hc) with
    htk | hdr
  · exact List.mem_takeWhile_imp htk
  · exact hAllL c hdr

/-- Each verb of the vocabularies starts with a fixed non-whitespace
character. -/
lemma verb_heads :
    ∀ v ∈ Recap.phraseVerbs ++ Recap.singleWordVerbs,
      v ≠ [] ∧ isWsChar (v.headD ' ') = false := by
  decide

/-- A qualifying bullet does not trim away to nothing: the matched verb
contributes a non-whitespace character. -/
lemma qualifies_trim_ne {b : Str} (hq : Recap.qualifies b = true) :
    trimStr b ≠ [] := by
  intro htrim
  have hws : ∀ c ∈ b, isWsChar c = true := trim_nil_ws htrim
  have hwsl : ∀ c ∈ lowerStr b, isWsChar c = true := by
    intro c hc
    rcases List.mem_map.mp hc with ⟨c0, hc0, rfl⟩
    rw [toLower_ws_fixed (hws c0 hc0)]
    exact hws c0 hc0
  rw [Recap.qualifies] at hq
  simp only [Bool.or_eq_true, List.any_eq_true] at hq
  have contra : ∀ v ∈ Recap.phraseVerbs ++ Recap.singleWordVerbs,
      ¬ ∃ i, v <+: (lowerStr b).drop i := by
    rintro v hv ⟨i, hpre⟩
    rcases verb_heads v hv with ⟨hne, hch⟩
    cases v with
    | nil => exact hne rfl
    | cons ch cs =>
      have hmem : ch ∈ (lowerStr b).drop i := hpre.sublist.mem (List.mem_cons_self _ _)
      have hmem2 : ch ∈ lowerStr b := (List.drop_sublist i _).mem hmem
      rw [show (ch :: cs).headD ' ' = ch from rfl] at hch
      rw [hwsl ch hmem2] at hch
      cases hch
  rcases hq with ⟨v, hv, hinf⟩ | ⟨v, hv, hword⟩
  · have hvne : v ≠ [] := (verb_heads v (List.mem_append_left _ hv)).1
    rcases (hasInfixB_iff hvne).mp hinf with ⟨i, hpre⟩
    exact contra v (List.mem_append_left _ hv) ⟨i, hpre⟩
  · have hvne : v ≠ [] := (verb_heads v (List.mem_append_right _ hv)).1
    rcases (includesWord_iff hvne).mp hword with ⟨i, hpre, _, _⟩
    exact contra v (List.mem_append_right _ hv) ⟨i, hpre⟩

lemma cleaned_ne_nil {raw : Str} : ∀ b ∈ Legacy.cleaned raw, b ≠ [] := by
  intro b hb
  rw [Legacy.cleaned] at hb
  have := (List.mem_filter.mp hb).2
  simpa using this

lemma toBullets_sublist_cleaned (text : Str) :
    (Legacy.toBullets text).Sublist (Legacy.cleaned (trimStr (crlfFix text))) := by
  rcases Legacy.toBullets_eq text with h | ⟨_, h⟩
  · rw [h]; exact List.nil_sublist _
  · rw [h]; exact Legacy.dedupAux_sublist [] _

lemma toBullets_pairwise_keys (text : Str) :
    List.Pairwise (fun a b => lowerStr a ≠ lowerStr b) (Legacy.toBullets text) := by
  rcases Legacy.toBullets_eq text with h | ⟨_, h⟩
  · rw [h]; exact List.Pairwise.nil
  · rw [h]; exact Legacy.dedupAux_pairwise [] _

/-! ### Claim theorems -/

/-- C4 (amended): the dedup invariant holds for the `toBullets` segmenter of
`src/unnamed/part_001`: no two bullets of `toBullets text` compare equal
under case-insensitive whitespace-normalized comparison, the output is a
subsequence of the cleaned candidate stream (first-seen order preserved),
and each kept bullet is the first candidate with its key (first occurrence
wins).  The live `parseBullets` segmenter of `src/web/lib/recap.ts`
performs no deduplication (see the counterexample). -/
theorem c4_toBullets_dedup (text : Str) :
    List.Pairwise
      (fun a b => lowerStr (normalizeLine a) ≠ lowerStr (normalizeLine b))
      (Legacy.toBullets text) ∧
    (Legacy.toBullets text).Sublist (Legacy.cleaned (trimStr (crlfFix text))) ∧
    (∀ b ∈ Legacy.toBullets text,
      (Legacy.cleaned (trimStr (crlfFix text))).find?
        (fun y => lowerStr y == lowerStr b) = some b) := by
  refine ⟨?_, toBullets_sublist_cleaned text, ?_⟩
  · have hp := toBullets_pairwise_keys text
    refine List.Pairwise.imp_of_mem ?_ hp
    intro a b ha hb hne2
    have hfa : normalizeLine a = a :=
      Legacy.cleaned_normalized a ((toBullets_sublist_cleaned text).mem ha)
    have hfb : normalizeLine b = b :=
      Legacy.cleaned_normalized b ((toBullets_sublist_cleaned text).mem hb)
    rw [hfa, hfb]
    exact hne2
  · rcases Legacy.toBullets_eq text with h | ⟨_, h⟩
    · rw [h]
      exact fun b hb => absurd hb (List.not_mem_nil b)
    · rw [h]
      exact fun b hb => Legacy.dedupAux_find? b hb

/-- C4 counterexample: the live segmenter `parseBullets` of
`src/web/lib/recap.ts` (invoked by the generate route) keeps duplicate
bullets: on the two-line input `a`/`a` it returns two bullets that compare
equal under case-insensitive whitespace-normalized comparison. -/
theorem c4_counterexample :
    Recap.parseBullets (("a\na").toList) = [['a'], ['a']] ∧
    ¬ List.Pairwise
        (fun a b => lowerStr (normalizeLine a) ≠ lowerStr (normalizeLine b))
        (Recap.parseBullets (("a\na").toList)) := by
  exact ⟨by decide, by decide⟩

/-- C5 (amended): re-segmentation is the identity on a `toBullets` output
whose bullets contain no newline or carriage return, no residual leading
bullet marker, and no inline separator (glyph, space-dash-space,
space-pipe-space), provided the output is not a single bullet longer than
80 characters (which would re-enter the prose heuristic).  Without these
provisos the claim fails, see the counterexample. -/
theorem c5_toBullets_idempotent (x : Str)
    (hchar : ∀ b ∈ Legacy.toBullets x, ∀ c ∈ b, c ≠ '\n' ∧ c ≠ '\r')
    (hmark : ∀ b ∈ Legacy.toBullets x, Legacy.stripMarker b = b)
    (hglyph : ∀ b ∈ Legacy.toBullets x, Legacy.splitByPred Legacy.isGlyph b = [b])
    (hdash : ∀ b ∈ Legacy.toBullets x, Legacy.splitTriple '-' b = [b])
    (hpipe : ∀ b ∈ Legacy.toBullets x, Legacy.splitTriple '|' b = [b])
    (hlong : (Legacy.toBullets x).length = 1 →
      ((Legacy.toBullets x).headD []).length ≤ 80) :
    Legacy.toBullets (joinNl (Legacy.toBullets x)) = Legacy.toBullets x := by
  have hsub : (Legacy.toBullets x).Sublist (Legacy.cleaned (trimStr (crlfFix x))) :=
    toBullets_sublist_cleaned x
  apply toBullets_roundTrip
  · intro b hb
    exact cleaned_ne_nil b (hsub.mem hb)
  · intro b hb
    exact Legacy.cleaned_normalized b (hsub.mem hb)
  · exact hchar
  · exact hmark
  · exact hglyph
  · exact hdash
  · exact hpipe
  · exact toBullets_pairwise_keys x
  · intro b hb
    rw [hb] at hlong
    simpa using hlong (by simp)

/-- C5 witness input: a two-bullet list satisfying every proviso. -/
theorem c5_witness :
    (∀ b ∈ Legacy.toBullets (("Send report\nReview budget").toList),
        ∀ c ∈ b, c ≠ '\n' ∧ c ≠ '\r') ∧
    Legacy.toBullets (joinNl (Legacy.toBullets (("Send report\nReview budget").toList))) =
      Legacy.toBullets (("Send report\nReview budget").toList) := by
  refine ⟨by decide, ?_⟩
  exact c5_toBullets_idempotent _ (by decide) (by decide) (by decide) (by decide)
    (by decide) (by decide)

/-- C5 counterexample: `toBullets` is not idempotent on its own output as
the claim states it: the single line `1. 2. x` segments to the bullet
`2. x`, and re-segmenting the joined output strips a second numbering
marker, yielding `x`. -/
theorem c5_counterexample :
    Legacy.toBullets (("1. 2. x").toList) = [("2. x").toList] ∧
    Legacy.toBullets (joinNl (Legacy.toBullets (("1. 2. x").toList))) = [['x']] ∧
    ([("2. x").toList] : List Str) ≠ [['x']] := by
  exact ⟨by decide, by decide, by decide⟩

/-- C1 (amended): the fallback guarantee holds for the legacy
`parseActionItems` of `src/unnamed/part_001`: a nonempty bullet list never
yields an empty item list, and when no bullet qualifies as an action the
result is the first `min(5, length)` bullets as fallback items (raw bullet
kept verbatim; action text is the bullet with a leading `-`/`•` marker
stripped and trimmed; no owner or due).  The live `parseActionItems` of
`src/web/lib/recap.ts` has no fallback and returns the empty list on such
input (see the counterexample). -/
theorem c1_fallback (bullets : List Str) (hne : bullets ≠ []) :
    Legacy.parseActionItems bullets ≠ [] ∧
    ((∀ b ∈ bullets, trimStr b = [] ∨ Legacy.looksLikeAction (trimStr b) = false) →
      Legacy.parseActionItems bullets = (bullets.take 5).map Legacy.fallbackItem) := by
  constructor
  · rw [Legacy.parseActionItems]
    by_cases hI : (bullets.filterMap fun b =>
        let text := trimStr b
        if text = [] then none
        else if Legacy.looksLikeAction text then some (Legacy.mkItem text) else none) = []
    · rw [if_pos hI]
      cases bullets with
      | nil => exact absurd rfl hne
      | cons b t => simp
    · rw [if_neg hI]
      cases hfm : (bullets.filterMap fun b =>
          let text := trimStr b
          if text = [] then none
          else if Legacy.looksLikeAction text then some (Legacy.mkItem text) else none) with
      | nil => exact absurd hfm hI
      | cons i r => simp [hfm]
  · intro hnoq
    rw [Legacy.parseActionItems]
    have hfm : (bullets.filterMap fun b =>
        let text := trimStr b
        if text = [] then none
        else if Legacy.looksLikeAction text then some (Legacy.mkItem text) else none) = [] := by
      rw [List.filterMap_eq_nil_iff]
      intro b hb
      rcases hnoq b hb with h0 | hq
      · simp [h0]
      · simp [hq]
    rw [hfm, if_pos rfl]

/-- C1 witness: a nonempty list with no qualifying bullet takes the
fallback path and returns one fallback item. -/
theorem c1_witness :
    ([("hello there friends").toList] : List Str) ≠ [] ∧
    Legacy.parseActionItems [("hello there friends").toList] ≠ [] ∧
    Legacy.parseActionItems [("hello there friends").toList] =
      [Legacy.fallbackItem (("hello there friends").toList)] := by
  refine ⟨by decide, (c1_fallback _ (by decide)).1, ?_⟩
  have h := (c1_fallback [("hello there friends").toList] (by decide)).2 (by decide)
  simpa using h

/-- C1 counterexample: the live `parseActionItems` of
`src/web/lib/recap.ts` returns the empty sequence on a nonempty bullet
list with no action cue — the claimed fallback does not exist there. -/
theorem c1_counterexample :
    Recap.parseActionItems [("hello there friends").toList] = [] ∧
    ([("hello there friends").toList] : List Str) ≠ [] := by
  exact ⟨by decide, by decide⟩

/-- C2 (amended): in the live `parseActionItems` of `src/web/lib/recap.ts`
the `text` field of every produced item is exactly the qualifying bullet
trimmed — no leading-marker strip, no `action:` strip and no owner-subject
strip is applied — and the text is never the empty string (a qualifying
bullet contains a verb, hence a non-whitespace character). -/
theorem c2_action_text (bullets : List Str) :
    (Recap.parseActionItems bullets).map Recap.ActionItem.text =
      (bullets.filter Recap.qualifies).map trimStr ∧
    ∀ item ∈ Recap.parseActionItems bullets, item.text ≠ [] := by
  constructor
  · rw [Recap.parseActionItems, List.map_map]
    rfl
  · intro item hitem
    rw [Recap.parseActionItems] at hitem
    rcases List.mem_map.mp hitem with ⟨b, hb, rfl⟩
    have hq : Recap.qualifies b = true := (List.mem_filter.mp hb).2
    exact qualifies_trim_ne hq

/-- C2 counterexample: the bullet `Logan will call Bob` matches the
owner-subject pattern (`Logan will …`), yet the produced item text keeps
the owner prefix instead of the claimed stripped form `call Bob`. -/
theorem c2_counterexample :
    (Legacy.ownerPatternMatch (("Logan will call Bob").toList)).isSome = true ∧
    (Recap.parseActionItems [("Logan will call Bob").toList]).map Recap.ActionItem.text =
      [("Logan will call Bob").toList] ∧
    ("Logan will call Bob").toList ≠ ("call Bob").toList := by
  exact ⟨by decide, by decide, by decide⟩

/-- C3 (amended): for the scenario highlight `Confirm budget` tagged
`Urgent` with type `concern` and tone `warm`, the email body contains
exactly one bullet line, `- [Urgent] Confirm budget`, and the greeting and
closing are the title-cased table entries `Hi There,` and
`Thanks So Much,` (not the claimed lower-case `Hi there,` /
`Thanks so much,`). -/
theorem c3_highlight_email :
    (splitNl c3Email).filter (fun l => Recap.dashSp.isPrefixOf l) =
      [("- [Urgent] Confirm budget").toList] ∧
    ("Hi There,").toList ∈ splitNl c3Email ∧
    ("Thanks So Much,").toList ∈ splitNl c3Email := by
  exact ⟨by decide, by decide, by decide⟩

/-- C3 counterexample: the draft produced for the scenario does not contain
the claimed greeting `Hi there,` nor the claimed closing
`Thanks so much,` anywhere — the source tables are title-cased. -/
theorem c3_counterexample :
    hasInfixB (("Hi there,").toList) c3Email = false ∧
    hasInfixB (("Thanks so much,").toList) c3Email = false := by
  exact ⟨by decide, by decide⟩

/-- C6: verb matching of the live `parseActionItems` is whole-word: a
bullet in which every single-word verb occurrence touches a word character
on at least one side (i.e. occurs only inside a longer word), and which
contains no phrase verb, is not classified as an action item — prepending
it to any bullet list leaves the result unchanged. -/
theorem c6_word_boundary (b : Str)
    (hp : ∀ p ∈ Recap.phraseVerbs, ¬ p <:+: lowerStr b)
    (hs : ∀ w ∈ Recap.singleWordVerbs, ∀ i < (lowerStr b).length,
      w <+: (lowerStr b).drop i →
      prevNonWord (lowerStr b) i = false ∨
      nextNonWord (lowerStr b) (i + w.length) = false) :
    Recap.qualifies b = false ∧
    ∀ bullets, Recap.parseActionItems (b :: bullets) = Recap.parseActionItems bullets := by
  have hq : Recap.qualifies b = false := by
    rw [Recap.qualifies]
    apply Bool.or_eq_false_iff.mpr
    constructor
    · rw [List.any_eq_false]
      intro v hv hvb
      have hvne : v ≠ [] := (verb_heads v (List.mem_append_left _ hv)).1
      exact absurd ((hasInfixB_iff_occurs hvne).mp hvb) (hp v hv)
    · rw [List.any_eq_false]
      intro v hv hvb
      have hvne : v ≠ [] := (verb_heads v (List.mem_append_right _ hv)).1
      rcases (includesWord_iff hvne).mp hvb with ⟨i, hpre, hprev, hnext⟩
      have hi : i < (lowerStr b).length := by
        by_contra hge
        have hdn : (lowerStr b).drop i = [] := List.drop_eq_nil_of_le (by omega)
        rw [hdn] at hpre
        exact hvne (List.prefix_nil.mp hpre)
      rcases hs v hv i hi hpre with hbad | hbad
      · rw [hprev] at hbad; cases hbad
      · rw [hnext] at hbad; cases hbad
  refine ⟨hq, ?_⟩
  intro bullets
  simp [Recap.parseActionItems, List.filter_cons, hq]

/-- C6 witness: `Handle the callback` contains `call` only inside
`callback` and no other cue; it is not classified. -/
theorem c6_witness :
    (∀ p ∈ Recap.phraseVerbs, ¬ p <:+: lowerStr (("Handle the callback").toList)) ∧
    Recap.qualifies (("Handle the callback").toList) = false ∧
    Recap.parseActionItems [("Handle the callback").toList] =
      Recap.parseActionItems [] := by
  refine ⟨by decide, (c6_word_boundary _ (by decide) (by decide)).1,
    (c6_word_boundary _ (by decide) (by decide)).2 []⟩

/-- C7: for each of the 5 × 4 type/tone combinations and every bullet list,
`makeEmailDraft` draws a nonempty subject, greeting and closing from the
fixed tables, and each of them occurs in the produced draft (the tables are
total functions of the two enumerations — no combination is undefined). -/
theorem c7_email_templates (t : Recap.EmailType) (tn : Recap.EmailTone)
    (bullets : List Str) :
    Recap.subjectByType t ≠ [] ∧
    Recap.greetingByTone tn ≠ [] ∧
    Recap.closingByTone tn ≠ [] ∧
    (Recap.subjectPre ++ Recap.subjectByType t) <:+:
      Recap.makeEmailDraft bullets ⟨some t, some tn, none, [], none⟩ ∧
    Recap.greetingByTone tn <:+:
      Recap.makeEmailDraft bullets ⟨some t, some tn, none, [], none⟩ ∧
    Recap.closingByTone tn <:+:
      Recap.makeEmailDraft bullets ⟨some t, some tn, none, [], none⟩ := by
  have hsubj : trimStr (Recap.subjectByType t) = Recap.subjectByType t := by
    cases t <;> decide
  have hdraft : Recap.makeEmailDraft bullets ⟨some t, some tn, none, [], none⟩ =
      Recap.emailDraftHeader ++ Recap.subjectPre ++ Recap.subjectByType t ++ Recap.nl2 ++
      Recap.greetingByTone tn ++ Recap.nl2 ++
      Recap.introByType t ++ Recap.nl1 ++
      (if joinNl ((bullets.take 6).map fun b => Recap.dashSp ++ b) = []
        then Recap.noNotesLine
        else joinNl ((bullets.take 6).map fun b => Recap.dashSp ++ b)) ++ Recap.nl2 ++
      Recap.questionsLine ++ Recap.nl2 ++ Recap.closingByTone tn := by
    rw [Recap.makeEmailDraft]
    simp [hsubj]
  refine ⟨by cases t <;> decide, by cases tn <;> decide, by cases tn <;> decide, ?_, ?_, ?_⟩
  · refine ⟨Recap.emailDraftHeader,
      Recap.nl2 ++ Recap.greetingByTone tn ++ Recap.nl2 ++
        Recap.introByType t ++ Recap.nl1 ++
        (if joinNl ((bullets.take 6).map fun b => Recap.dashSp ++ b) = []
          then Recap.noNotesLine
          else joinNl ((bullets.take 6).map fun b => Recap.dashSp ++ b)) ++ Recap.nl2 ++
        Recap.questionsLine ++ Recap.nl2 ++ Recap.closingByTone tn, ?_⟩
    rw [hdraft]
    simp [List.append_assoc]
  · refine ⟨Recap.emailDraftHeader ++ Recap.subjectPre ++ Recap.subjectByType t ++ Recap.nl2,
      Recap.nl2 ++ Recap.introByType t ++ Recap.nl1 ++
        (if joinNl ((bullets.take 6).map fun b => Recap.dashSp ++ b) = []
          then Recap.noNotesLine
          else joinNl ((bullets.take 6).map fun b => Recap.dashSp ++ b)) ++ Recap.nl2 ++
        Recap.questionsLine ++ Recap.nl2 ++ Recap.closingByTone tn, ?_⟩
    rw [hdraft]
    simp [List.append_assoc]
  · refine ⟨Recap.emailDraftHeader ++ Recap.subjectPre ++ Recap.subjectByType t ++ Recap.nl2 ++
      Recap.greetingByTone tn ++ Recap.nl2 ++
      Recap.introByType t ++ Recap.nl1 ++
      (if joinNl ((bullets.take 6).map fun b => Recap.dashSp ++ b) = []
        then Recap.noNotesLine
        else joinNl ((bullets.take 6).map fun b => Recap.dashSp ++ b)) ++ Recap.nl2 ++
      Recap.questionsLine ++ Recap.nl2, [], ?_⟩
    rw [hdraft]
    simp [List.append_assoc]

/-- C8: the generate boundary rejects before the pipeline: all-empty input
yields the 400 validation result, and a merged blob over 50 000 characters
yields the 413 size result — in the model both are constructors distinct
from `ok`, the only branch in which `parseBullets`/`parseActionItems`
appear, so a rejected request never reaches them. -/
theorem c8_boundary_validation :
    (∀ r p o : Str, trimStr r = [] → trimStr p = [] → trimStr o = [] →
      Api.postGenerate r p o = Api.GenerateResult.missingInput) ∧
    (∀ r p o : Str,
      50000 < (Api.buildMergedNotes (trimStr r) (trimStr p) (trimStr o)).length →
      Api.postGenerate r p o =
        Api.GenerateResult.tooLarge
          (Api.buildMergedNotes (trimStr r) (trimStr p) (trimStr o)).length) := by
  constructor
  · intro r p o hr hp ho
    rw [Api.postGenerate]
    rw [if_pos ⟨hr, hp, ho⟩]
  · intro r p o hlen
    rw [Api.postGenerate]
    have hnotall : ¬(trimStr r = [] ∧ trimStr p = [] ∧ trimStr o = []) := by
      rintro ⟨hr, hp, ho⟩
      rw [hr, hp, ho] at hlen
      have hempty : Api.buildMergedNotes [] [] [] = [] := by decide
      rw [hempty] at hlen
      simp at hlen
    rw [if_neg hnotall, if_pos hlen]

/-- C8 witness: the all-empty request is rejected with the validation
result, and a 50 001-character raw-notes request is rejected with the
size result. -/
lemma buildMergedNotes_raw_only {w : Str} (hw : w ≠ []) (ht : trimStr w = w) :
    Api.buildMergedNotes w [] [] = w := by
  rw [Api.buildMergedNotes, ht]
  rw [if_pos hw, if_neg (by decide), if_neg (by decide)]
  simp [joinNl]

theorem c8_witness :
    Api.postGenerate [] [] [] = Api.GenerateResult.missingInput ∧
    Api.postGenerate (List.replicate 50001 'a') [] [] =
      Api.GenerateResult.tooLarge 50001 := by
  have htrim : trimStr (List.replicate 50001 'a') = List.replicate 50001 'a' := by
    have htl : trimL (List.replicate 50001 'a') = List.replicate 50001 'a' := by
      rw [show (50001 : Nat) = 50000 + 1 from rfl, List.replicate_succ, trimL,
        List.dropWhile_cons, if_neg (by decide)]
    rw [trimStr, htl, trimR, List.reverse_replicate,
      show (50001 : Nat) = 50000 + 1 from rfl, List.replicate_succ,
      List.dropWhile_cons, if_neg (by decide), ← List.replicate_succ,
      List.reverse_replicate]
  have hne : (List.replicate 50001 'a' : Str) ≠ [] :=
    List.ne_nil_of_length_pos (by rw [List.length_replicate]; omega)
  have hmerged :
      Api.buildMergedNotes (trimStr (List.replicate 50001 'a')) (trimStr []) (trimStr []) =
        List.replicate 50001 'a' := by
    rw [htrim]
    exact buildMergedNotes_raw_only hne htrim
  constructor
  · exact c8_boundary_validation.1 [] [] [] rfl rfl rfl
  · have h2 := c8_boundary_validation.2 (List.replicate 50001 'a') [] []
      (by rw [hmerged, List.length_replicate]; omega)
    rw [hmerged, List.length_replicate] at h2
    exact h2

/-- C9 (amended): `detectActionIssues` processes each item independently,
and a `missingOwner` issue is emitted for an item exactly when the item's
owner field is absent or empty, its text contains none of `@`, `owner:`,
`assigned to` as substrings (case-insensitive), and no word-boundary
occurrence of `i will` or `we will` (case-insensitive) — the latter two are
matched as whole words, not substrings as the claim states. -/
theorem c9_missing_owner (items : List Recap.ActionItem) :
    Recap.detectActionIssues items = items.flatMap Recap.issuesForItem ∧
    ∀ item : Recap.ActionItem,
      (Recap.missingOwnerIssue item ∈ Recap.issuesForItem item ↔
        (Recap.truthyOpt item.owner = false ∧
         ¬ Recap.atStr <:+: lowerStr item.text ∧
         ¬ Recap.ownerTagKey <:+: lowerStr item.text ∧
         ¬ Recap.assignedKey <:+: lowerStr item.text ∧
         ¬ (∃ i, Recap.iWillStr <+: (lowerStr item.text).drop i ∧
              prevNonWord (lowerStr item.text) i = true ∧
              nextNonWord (lowerStr item.text) (i + Recap.iWillStr.length) = true) ∧
         ¬ (∃ i, Recap.weWillStr <+: (lowerStr item.text).drop i ∧
              prevNonWord (lowerStr item.text) i = true ∧
              nextNonWord (lowerStr item.text) (i + Recap.weWillStr.length) = true))) := by
  refine ⟨rfl, ?_⟩
  intro item
  have hmem : Recap.missingOwnerIssue item ∈ Recap.issuesForItem item ↔
      Recap.hasOwnerB item = false := by
    constructor
    · intro h
      cases hBt : Recap.hasOwnerB item
      · rfl
      · rw [Recap.issuesForItem, hBt] at h
        simp only [Bool.not_true, Bool.false_eq_true, if_false, List.nil_append] at h
        rcases List.mem_append.mp h with h1 | h2
        · split_ifs at h1
          · have heq := List.mem_singleton.mp h1
            simp [Recap.missingOwnerIssue, Recap.missingDueIssue] at heq
          · cases h1
        · split_ifs at h2
          · have heq := List.mem_singleton.mp h2
            simp [Recap.missingOwnerIssue, Recap.vagueIssue] at heq
          · cases h2
    · intro hB
      rw [Recap.issuesForItem, hB]
      simp
  rw [hmem, Recap.hasOwnerB]
  simp only [Bool.or_eq_false_iff]
  constructor
  · rintro ⟨⟨⟨⟨⟨h1, h2⟩, h3⟩, h4⟩, h5⟩, h6⟩
    refine ⟨h1, ?_, ?_, ?_, ?_, ?_⟩
    · intro hinf
      have := (hasInfixB_iff_occurs (by decide)).mpr hinf
      rw [h2] at this
      cases this
    · intro hinf
      have := (hasInfixB_iff_occurs (by decide)).mpr hinf
      rw [h3] at this
      cases this
    · intro hinf
      have := (hasInfixB_iff_occurs (by decide)).mpr hinf
      rw [h4] at this
      cases this
    · intro hex
      have := (includesWord_iff (by decide)).mpr hex
      rw [h5] at this
      cases this
    · intro hex
      have := (includesWord_iff (by decide)).mpr hex
      rw [h6] at this
      cases this
  · rintro ⟨h1, h2, h3, h4, h5, h6⟩
    refine ⟨⟨⟨⟨⟨h1, ?_⟩, ?_⟩, ?_⟩, ?_⟩, ?_⟩
    · cases hx : hasInfixB Recap.atStr (lowerStr item.text)
      · rfl
      · exact absurd ((hasInfixB_iff_occurs (by decide)).mp hx) h2
    · cases hx : hasInfixB Recap.ownerTagKey (lowerStr item.text)
      · rfl
      · exact absurd ((hasInfixB_iff_occurs (by decide)).mp hx) h3
    · cases hx : hasInfixB Recap.assignedKey (lowerStr item.text)
      · rfl
      · exact absurd ((hasInfixB_iff_occurs (by decide)).mp hx) h4
    · cases hx : includesWord (lowerStr item.text) Recap.iWillStr
      · rfl
      · exact absurd ((includesWord_iff (by decide)).mp hx) h5
    · cases hx : includesWord (lowerStr item.text) Recap.weWillStr
      · rfl
      · exact absurd ((includesWord_iff (by decide)).mp hx) h6

/-- C9 counterexample: the item text `ski willow` contains the substring
`i will` and has no owner, so the claim predicts no `missingOwner` issue —
but the code matches `i will` with word boundaries, finds none, and emits
the issue. -/
theorem c9_counterexample :
    Recap.missingOwnerIssue c9Item ∈ Recap.detectActionIssues [c9Item] ∧
    hasInfixB Recap.iWillStr (lowerStr c9Item.text) = true ∧
    c9Item.owner = none := by
  exact ⟨by decide, by decide, by decide⟩

lemma makeEmailDraft_eq (bullets : List Str) (opts : Recap.MakeEmailDraftOptions) :
    Recap.makeEmailDraft bullets opts =
      Recap.emailDraftHeader ++ Recap.subjectPre ++
      trimStr (opts.subjectOverride.getD
        (Recap.subjectByType (opts.type.getD Recap.EmailType.followUp))) ++
      Recap.nl2 ++
      Recap.greetingByTone (opts.tone.getD Recap.EmailTone.professional) ++ Recap.nl2 ++
      (if opts.contextLines.filter (· ≠ []) ≠ [] then
        Recap.contextHeader ++
          joinNl ((opts.contextLines.filter (· ≠ [])).map fun l => Recap.dashSp ++ l) ++
          Recap.nl2
       else []) ++
      Recap.introByType (opts.type.getD Recap.EmailType.followUp) ++ Recap.nl1 ++
      (if joinNl ((bullets.take (opts.maxBullets.getD 6)).map
          fun b => Recap.dashSp ++ b) = []
        then Recap.noNotesLine
        else joinNl ((bullets.take (opts.maxBullets.getD 6)).map
          fun b => Recap.dashSp ++ b)) ++
      Recap.nl2 ++ Recap.questionsLine ++ Recap.nl2 ++
      Recap.closingByTone (opts.tone.getD Recap.EmailTone.professional) := by
  rfl

lemma noNotesLine_infix_of_nil (opts : Recap.MakeEmailDraftOptions) :
    (Recap.nl1 ++ Recap.noNotesLine ++ Recap.nl2) <:+: Recap.makeEmailDraft [] opts := by
  rw [makeEmailDraft_eq]
  refine ⟨Recap.emailDraftHeader ++ Recap.subjectPre ++
    trimStr (opts.subjectOverride.getD
      (Recap.subjectByType (opts.type.getD Recap.EmailType.followUp))) ++
    Recap.nl2 ++
    Recap.greetingByTone (opts.tone.getD Recap.EmailTone.professional) ++ Recap.nl2 ++
    (if opts.contextLines.filter (· ≠ []) ≠ [] then
      Recap.contextHeader ++
        joinNl ((opts.contextLines.filter (· ≠ [])).map fun l => Recap.dashSp ++ l) ++
        Recap.nl2
     else []) ++
    Recap.introByType (opts.type.getD Recap.EmailType.followUp),
    Recap.questionsLine ++ Recap.nl2 ++
      Recap.closingByTone (opts.tone.getD Recap.EmailTone.professional), ?_⟩
  simp [joinNl, List.append_assoc]

/-- C10: the single placeholder bullet `(No Follow-Up Items Selected Yet)`
is substituted exactly when the highlights array is empty; with highlights
present the bullets are the first 50 rendered highlights with blanks
dropped, and when every highlight text is blank after trimming the bullet
list is empty and the delegated `makeEmailDraft` renders the body
placeholder line `- (No Notes Provided)` instead. -/
theorem c10_followup_placeholders :
    Recap.followUpBullets [] = [Recap.noFollowUpPlaceholder] ∧
    (∀ hs : List Recap.FollowUpEmailHighlight, hs ≠ [] →
      Recap.followUpBullets hs =
        ((hs.take 50).map Recap.highlightBullet).filter (· ≠ [])) ∧
    (∀ args : Recap.MakeFollowUpEmailDraftArgs, args.highlights ≠ [] →
      (∀ h ∈ args.highlights, trimStr h.text = []) →
      Recap.followUpBullets args.highlights = [] ∧
      (Recap.nl1 ++ Recap.noNotesLine ++ Recap.nl2) <:+:
        Recap.makeFollowUpEmailDraftFromHighlights args) := by
  refine ⟨rfl, ?_, ?_⟩
  · intro hs hne
    rw [Recap.followUpBullets, if_neg (by simpa [List.isEmpty_iff] using hne)]
  · intro args hne hblank
    have hbul : Recap.followUpBullets args.highlights = [] := by
      rw [Recap.followUpBullets, if_neg (by simpa [List.isEmpty_iff] using hne)]
      rw [List.filter_eq_nil_iff]
      intro x hx
      rcases List.mem_map.mp hx with ⟨h0, hh0, rfl⟩
      have hb := hblank h0 ((List.take_sublist 50 args.highlights).mem hh0)
      simp [Recap.highlightBullet, hb]
    refine ⟨hbul, ?_⟩
    show (Recap.nl1 ++ Recap.noNotesLine ++ Recap.nl2) <:+:
      Recap.makeEmailDraft (Recap.followUpBullets args.highlights)
        ⟨some (args.emailType.getD Recap.EmailType.followUp),
         some (args.emailTone.getD Recap.EmailTone.professional),
         (if trimStr (args.followUpType.getD []) ≠ [] then
            some (Recap.subjOverridePre ++ trimStr (args.followUpType.getD []))
          else none),
         Recap.followUpContextLines args, some 20⟩
    rw [hbul]
    exact noNotesLine_infix_of_nil _

/-- C10 witness: one highlight whose text is a single space — the bullet
list empties and the body placeholder is rendered. -/
theorem c10_witness :
    Recap.followUpBullets [⟨(" ").toList, none⟩] = [] ∧
    (Recap.nl1 ++ Recap.noNotesLine ++ Recap.nl2) <:+:
      Recap.makeFollowUpEmailDraftFromHighlights
        ⟨[⟨(" ").toList, none⟩], none, none, none, none, none, none, none⟩ := by
  have h := c10_followup_placeholders.2.2
    ⟨[⟨(" ").toList, none⟩], none, none, none, none, none, none, none⟩
    (by simp)
    (by
      intro x hx
      rcases List.mem_singleton.mp hx with rfl
      decide)
  exact ⟨h.1, h.2⟩
